import Mathlib

/-!
Verification of the manifest block editor and menu logic of the
ets2-optionalizer tool (src/main.py).

The Python functions are shallowly embedded over `List Char` (text) and
`List String` (filesystem paths).  Python text strings become `List Char`;
`str.splitlines`, `str.strip`, `str.count`, slicing and the `in` substring
test are each modelled by an executable Lean function below.  File I/O is
abstracted away: `process_folder_mod` takes the manifest content as an
argument and returns the content it would write back.
-/

namespace Optionalizer

/-- Characters Python `str.strip()` removes (ASCII / Latin-1 whitespace;
the rarer Unicode space code points never occur in the texts considered). -/
def isPySpace (c : Char) : Bool :=
  c = ' ' || c = '\t' || c = '\n' || c = '\r' || c = '\x0b' || c = '\x0c' ||
  c = '\x1c' || c = '\x1d' || c = '\x1e' || c = '\x1f' || c = '\u0085' || c = '\u00a0'

/-- Line boundaries recognised by Python `str.splitlines`. -/
def isLineBreak (c : Char) : Bool :=
  c = '\n' || c = '\r' || c = '\x0b' || c = '\x0c' ||
  c = '\x1c' || c = '\x1d' || c = '\x1e' || c = '\u0085' || c = '\u2028' || c = '\u2029'

/-- Python `str.splitlines`: split at every line boundary, treating CR LF as
a single boundary; a trailing boundary produces no extra empty line. -/
def pySplitlines : List Char → List (List Char)
  | [] => []
  | c :: cs =>
    if isLineBreak c = true then
      match cs with
      | [] => [[]]
      | d :: cs2 =>
        if c = '\r' ∧ d = '\n' then [] :: pySplitlines cs2
        else [] :: pySplitlines (d :: cs2)
    else
      match pySplitlines cs with
      | [] => [[c]]
      | l :: ls => (c :: l) :: ls

/-- Python `"\n".join(lines)`. -/
def joinN : List (List Char) → List Char
  | [] => []
  | [l] => l
  | l :: ls => l ++ '\n' :: joinN ls

/-- Python `str.lstrip()`. -/
def lstripL (l : List Char) : List Char := l.dropWhile isPySpace

/-- Python `str.rstrip()`. -/
def rstripL (l : List Char) : List Char := (l.reverse.dropWhile isPySpace).reverse

/-- Python `str.strip()`. -/
def pyStrip (l : List Char) : List Char := rstripL (lstripL l)

/-- Python `line.count(c)` for a single-character argument. -/
def countChar (c : Char) (l : List Char) : Nat := (l.filter (fun x => x = c)).length

/-- Net brace contribution of one line: its count of opening braces minus
its count of closing braces. -/
def braceDelta (l : List Char) : Int :=
  (countChar '\x7b' l : Int) - (countChar '\x7d' l : Int)

/-- Sum of the brace contributions of a list of lines. -/
def sumDelta (ls : List (List Char)) : Int := (ls.map braceDelta).sum

/-- Python `h.startswith(n)` (here: n is a leading segment of h). -/
def leadsWith : List Char → List Char → Bool
  | [], _ => true
  | _ :: _, [] => false
  | c :: n, d :: h => c = d && leadsWith n h

/-- Python substring test `n in h`. -/
def listContains : List Char → List Char → Bool
  | [], n => leadsWith n []
  | h@(_ :: t), n => leadsWith n h || listContains t n

/-- Python `line[:-len(line.lstrip())]` (the leading indentation of a line;
note that for an all-whitespace line Python yields the empty string because
the slice end is `-0`). -/
def pyIndent (l : List Char) : List Char :=
  if (lstripL l).length = 0 then [] else l.take (l.length - (lstripL l).length)

/-- The header token of the toggled block. -/
def headerTok : List Char := "mod_package".data

/-- The flag token searched for inside the block. -/
def flagTok : List Char := "mp_mod_optional:".data

/-- The text of a rewritten flag line, before the value. -/
def flagAssign : List Char := "mp_mod_optional: ".data

/-- Four spaces of extra indentation used when inserting a flag line. -/
def fourSpaces : List Char := "    ".data

/-- Python `'true' if enable else 'false'`. -/
def pyValue (enable : Bool) : List Char := if enable then "true".data else "false".data

/-- The substring whose presence `read_manifest_from_text` tests. -/
def needleTrue : List Char := "mp_mod_optional: true".data

/-- The header test of `toggle_manifest_text`:
`stripped.startswith("mod_package") and ":" in stripped`. -/
def isHeaderLine (l : List Char) : Bool :=
  leadsWith headerTok (pyStrip l) && listContains (pyStrip l) ":".data

/-- The loop state of `toggle_manifest_text` (variables `in_block`,
`brace_level`, `modified`). -/
structure TState where
  in_block : Bool
  brace_level : Int
  modified : Bool
deriving DecidableEq

/-- Initial loop state. -/
def initState : TState := ⟨false, 0, false⟩

/-- One iteration of the loop body of `toggle_manifest_text`: returns the
updated state and the lines appended to `result` by this iteration. -/
def toggleStep (value : List Char) (s : TState) (line : List Char) :
    TState × List (List Char) :=
  let stripped := pyStrip line
  let s1 : TState :=
    if isHeaderLine line then
      { s with in_block := true, brace_level := (countChar '\x7b' line : Int) }
    else s
  if s1.in_block then
    let bl : Int := s1.brace_level + braceDelta line
    if listContains stripped flagTok then
      ({ s1 with brace_level := bl, modified := true },
        [pyIndent line ++ flagAssign ++ value])
    else if bl = 0 ∧ stripped = "\x7d".data then
      ({ in_block := false, brace_level := bl, modified := s1.modified },
        (if s1.modified then [] else [pyIndent line ++ fourSpaces ++ flagAssign ++ value])
          ++ [line])
    else
      ({ s1 with brace_level := bl }, [line])
  else
    (s1, [line])

/-- Run the loop of `toggle_manifest_text` over a list of lines, emitting the
`result` lines. -/
def toggleGo (value : List Char) : TState → List (List Char) → List (List Char)
  | _, [] => []
  | s, l :: ls => (toggleStep value s l).2 ++ toggleGo value (toggleStep value s l).1 ls

/-- The loop state after running the loop over a list of lines. -/
def stepsState (value : List Char) (s : TState) (ls : List (List Char)) : TState :=
  ls.foldl (fun s l => (toggleStep value s l).1) s

/-- The line-level core of `toggle_manifest_text`. -/
def toggleLines (lines : List (List Char)) (enable : Bool) : List (List Char) :=
  toggleGo (pyValue enable) initState lines

/-- `toggle_manifest_text` on character lists:
split into lines, run the loop, join with a single newline. -/
def toggleChars (text : List Char) (enable : Bool) : List Char :=
  joinN (toggleLines (pySplitlines text) enable)

/-- Python `toggle_manifest_text(text, enable)`. -/
def toggle_manifest_text (text : String) (enable : Bool) : String :=
  ⟨toggleChars text.data enable⟩

/-- Python `read_manifest_from_text(text)`:
`"mp_mod_optional: true" in text`. -/
def read_manifest_from_text (text : String) : Bool :=
  listContains text.data needleTrue

/-- The literal part of the display-name pattern. -/
def dnTok : List Char := "display_name:".data

/-- Attempt of the tail of the pattern `\s*"([^"]+)"` at a fixed position
(the text right after an occurrence of `display_name:`): skip the whitespace
run, require an opening quote, capture the maximal nonempty run of non-quote
characters, require a closing quote. -/
def tryQuoted (cs : List Char) : Option (List Char) :=
  let rest := cs.dropWhile isPySpace
  if rest.head? = some '"' then
    let r := rest.tail
    let name := r.takeWhile (fun c => decide (c ≠ '"'))
    if name.length = 0 then none
    else if (r.drop name.length).head? = some '"' then some name else none
  else none

/-- Leftmost match of `re.search(r'display_name:\s*"([^"]+)"', text)`,
returning the captured group. -/
def findDisplayName : List Char → Option (List Char)
  | [] => none
  | c :: cs =>
    if leadsWith dnTok (c :: cs) then
      match tryQuoted ((c :: cs).drop dnTok.length) with
      | some n => some n
      | none => findDisplayName cs
    else findDisplayName cs

/-- Python `extract_display_name(text)`. -/
def extract_display_name (text : String) : Option String :=
  (findDisplayName text.data).map (fun l => ⟨l⟩)

/-- A filesystem path, modelled as its list of components. -/
def pathParent (p : List String) : List String := p.dropLast

/-- The `.name` of a path given as components. -/
def pathName (p : List String) : String := (p.getLast?).getD ""

/-- Python `process_folder_mod(manifest_path, enable)`, with the file system
abstracted: the manifest content is passed in, and the content that the
function writes back to the file (unchanged when `enable is None`) is
returned as the third component.  The first component is the returned
`current`, the second the returned `display_name`. -/
def process_folder_mod (path : List String) (content : String)
    (enable : Option Bool) : Bool × String × String :=
  let version_folder := pathName (pathParent path)
  let workshop_id_folder := pathName (pathParent (pathParent path))
  let current := read_manifest_from_text content
  let dn0 := extract_display_name content
  let display_name :=
    match dn0 with
    | some n => if n = "" then workshop_id_folder else n
    | none => workshop_id_folder
  let display_name := display_name ++ " [" ++ version_folder ++ "]"
  match enable with
  | some v => (v, display_name, toggle_manifest_text content v)
  | none => (current, display_name, content)

/-- The two cursor-movement commands of `arrow_menu`. -/
inductive MenuKey where
  | up : MenuKey
  | down : MenuKey

/-- One cursor movement of `arrow_menu` over a list of n records:
`max(0, i - 1)` respectively `min(n - 1, i + 1)`. -/
def menuMove (n : Int) (i : Int) : MenuKey → Int
  | MenuKey.up => max 0 (i - 1)
  | MenuKey.down => min (n - 1) (i + 1)

/-- The cursor position after a sequence of movement commands, starting from
index 0 as `arrow_menu` does. -/
def runMenu (n : Int) (keys : List MenuKey) : Int :=
  keys.foldl (menuMove n) 0

/-- n occurs as a contiguous segment of h. -/
def SubSeg (n h : List Char) : Prop := ∃ a b, h = a ++ n ++ b

/-- n is a leading segment of h. -/
def LeadSeg (n h : List Char) : Prop := ∃ b, h = n ++ b

/-! ### Basic facts about segment occurrence -/

theorem leadSeg_iff (n h : List Char) : leadsWith n h = true ↔ LeadSeg n h := by
  induction n generalizing h with
  | nil => simp [leadsWith, LeadSeg]
  | cons c n ih =>
    cases h with
    | nil =>
      simp only [leadsWith, LeadSeg]
      constructor
      · intro hf; cases hf
      · rintro ⟨b, hb⟩; cases hb
    | cons d h =>
      simp only [leadsWith, Bool.and_eq_true, decide_eq_true_eq, ih, LeadSeg]
      constructor
      · rintro ⟨rfl, b, rfl⟩; exact ⟨b, rfl⟩
      · rintro ⟨b, hb⟩
        injection hb with h1 h2
        exact ⟨h1.symm, b, h2⟩

theorem subSeg_nil_iff (n : List Char) : SubSeg n [] ↔ n = [] := by
  constructor
  · rintro ⟨a, b, hab⟩
    exact (List.append_eq_nil.mp (List.append_eq_nil.mp hab.symm).1).2
  · rintro rfl; exact ⟨[], [], rfl⟩

theorem subSeg_of_leadSeg {n h : List Char} (hl : LeadSeg n h) : SubSeg n h := by
  rcases hl with ⟨b, rfl⟩; exact ⟨[], b, rfl⟩

theorem subSeg_cons {n h : List Char} (c : Char) (hs : SubSeg n h) : SubSeg n (c :: h) := by
  rcases hs with ⟨a, b, rfl⟩; exact ⟨c :: a, b, rfl⟩

theorem subSeg_cons_iff (n : List Char) (c : Char) (h : List Char) :
    SubSeg n (c :: h) ↔ LeadSeg n (c :: h) ∨ SubSeg n h := by
  constructor
  · rintro ⟨a, b, hab⟩
    cases a with
    | nil => exact Or.inl ⟨b, by simpa using hab⟩
    | cons x a =>
      injection hab with h1 h2
      exact Or.inr ⟨a, b, h2⟩
  · rintro (hl | hs)
    · exact subSeg_of_leadSeg hl
    · exact subSeg_cons c hs

theorem listContains_iff (h n : List Char) : listContains h n = true ↔ SubSeg n h := by
  induction h with
  | nil =>
    simp only [listContains, subSeg_nil_iff, leadSeg_iff, LeadSeg]
    constructor
    · rintro ⟨b, hb⟩; exact (List.append_eq_nil.mp hb.symm).1
    · rintro rfl; exact ⟨[], rfl⟩
  | cons c t ih =>
    simp only [listContains, Bool.or_eq_true, leadSeg_iff, ih, subSeg_cons_iff]

theorem subSeg_append_of_subSeg {n h : List Char} (a b : List Char) (hs : SubSeg n h) :
    SubSeg n (a ++ h ++ b) := by
  rcases hs with ⟨x, y, rfl⟩
  exact ⟨a ++ x, y ++ b, by simp⟩

theorem subSeg_trans {a b c : List Char} (h1 : SubSeg a b) (h2 : SubSeg b c) : SubSeg a c := by
  rcases h2 with ⟨x, y, rfl⟩
  exact subSeg_append_of_subSeg x y h1

theorem mem_of_subSeg {c : Char} {n h : List Char} (hc : c ∈ n) (hs : SubSeg n h) : c ∈ h := by
  rcases hs with ⟨a, b, rfl⟩
  simp [hc]

theorem subSeg_reverse_iff (n h : List Char) : SubSeg n.reverse h.reverse ↔ SubSeg n h := by
  constructor
  · rintro ⟨a, b, hab⟩
    refine ⟨b.reverse, a.reverse, ?_⟩
    have := congrArg List.reverse hab
    simpa using this
  · rintro ⟨a, b, rfl⟩
    exact ⟨b.reverse, a.reverse, by simp⟩

theorem leadSeg_across {sep : Char} {n : List Char} (hsep : sep ∉ n) :
    ∀ {l J : List Char}, LeadSeg n (l ++ sep :: J) → LeadSeg n l := by
  induction n with
  | nil => intro l J _; exact ⟨l, rfl⟩
  | cons c n ih =>
    intro l J hl
    rcases hl with ⟨b, hb⟩
    cases l with
    | nil =>
      injection hb with h1 h2
      exact absurd (h1 ▸ List.mem_cons_self c n) hsep
    | cons d l =>
      injection hb with h1 h2
      have hn : sep ∉ n := fun hm => hsep (List.mem_cons_of_mem c hm)
      rcases ih hn ⟨b, h2⟩ with ⟨b2, hb2⟩
      exact ⟨b2, by simp [h1, hb2]⟩

theorem subSeg_across {sep : Char} {n : List Char} (hsep : sep ∉ n) :
    ∀ {l J : List Char}, SubSeg n (l ++ sep :: J) → SubSeg n l ∨ SubSeg n J := by
  intro l
  induction l with
  | nil =>
    intro J hs
    rcases (subSeg_cons_iff n sep J).mp hs with hl | hs2
    · rcases hl with ⟨b, hb⟩
      cases n with
      | nil => exact Or.inl ⟨[], [], rfl⟩
      | cons c n =>
        injection hb with h1 h2
        exact absurd (h1 ▸ List.mem_cons_self c n) hsep
    · exact Or.inr hs2
  | cons d l ih =>
    intro J hs
    rcases (subSeg_cons_iff n d (l ++ sep :: J)).mp hs with hl | hs2
    · exact Or.inl (subSeg_of_leadSeg (leadSeg_across hsep hl))
    · rcases ih hs2 with h1 | h2
      · exact Or.inl (subSeg_cons d h1)
      · exact Or.inr h2

/-! ### Whitespace and stripping -/

theorem mem_takeWhile_ws {l : List Char} {c : Char} (h : c ∈ l.takeWhile isPySpace) :
    isPySpace c = true := by
  induction l with
  | nil => cases h
  | cons d l ih =>
    by_cases hd : isPySpace d = true
    · rw [List.takeWhile_cons, if_pos hd] at h
      rcases List.mem_cons.mp h with rfl | hm
      · exact hd
      · exact ih hm
    · rw [List.takeWhile_cons, if_neg hd] at h
      cases h

theorem rstrip_decomp (l : List Char) :
    l = rstripL l ++ (l.reverse.takeWhile isPySpace).reverse := by
  have h1 : l.reverse.takeWhile isPySpace ++ l.reverse.dropWhile isPySpace = l.reverse :=
    List.takeWhile_append_dropWhile isPySpace l.reverse
  have h2 := congrArg List.reverse h1
  simp only [List.reverse_append, List.reverse_reverse] at h2
  exact h2.symm

theorem strip_decomp (l : List Char) :
    ∃ A B, l = A ++ pyStrip l ++ B ∧ (∀ c ∈ A, isPySpace c = true) ∧
      (∀ c ∈ B, isPySpace c = true) := by
  refine ⟨l.takeWhile isPySpace, ((lstripL l).reverse.takeWhile isPySpace).reverse, ?_, ?_, ?_⟩
  · have h1 : l.takeWhile isPySpace ++ lstripL l = l :=
      List.takeWhile_append_dropWhile isPySpace l
    have h2 : lstripL l = pyStrip l ++ ((lstripL l).reverse.takeWhile isPySpace).reverse :=
      rstrip_decomp (lstripL l)
    rw [List.append_assoc, ← h2, h1]
  · exact fun c hc => mem_takeWhile_ws hc
  · intro c hc
    exact mem_takeWhile_ws (List.mem_reverse.mp hc)

theorem countChar_append (c : Char) (a b : List Char) :
    countChar c (a ++ b) = countChar c a + countChar c b := by
  simp [countChar, List.filter_append]

theorem countChar_eq_zero {c : Char} {l : List Char} (h : ∀ x ∈ l, ¬x = c) :
    countChar c l = 0 := by
  simp only [countChar, List.length_eq_zero, List.filter_eq_nil_iff]
  intro a ha
  simpa using h a ha

theorem close_line_counts {l : List Char} (h : pyStrip l = "\x7d".data) :
    countChar '\x7b' l = 0 ∧ countChar '\x7d' l = 1 := by
  obtain ⟨A, B, hdec, hA, hB⟩ := strip_decomp l
  rw [h] at hdec
  have hob : ∀ x ∈ A, ¬x = '\x7b' := by
    intro x hx he; rw [he] at hx; have := hA _ hx; simp [isPySpace] at this
  have hcb : ∀ x ∈ A, ¬x = '\x7d' := by
    intro x hx he; rw [he] at hx; have := hA _ hx; simp [isPySpace] at this
  have hob2 : ∀ x ∈ B, ¬x = '\x7b' := by
    intro x hx he; rw [he] at hx; have := hB _ hx; simp [isPySpace] at this
  have hcb2 : ∀ x ∈ B, ¬x = '\x7d' := by
    intro x hx he; rw [he] at hx; have := hB _ hx; simp [isPySpace] at this
  constructor
  · rw [hdec, countChar_append, countChar_append,
      countChar_eq_zero hob, countChar_eq_zero hob2]
    decide
  · rw [hdec, countChar_append, countChar_append,
      countChar_eq_zero hcb, countChar_eq_zero hcb2]
    decide

theorem close_line_delta {l : List Char} (h : pyStrip l = "\x7d".data) :
    braceDelta l = -1 := by
  obtain ⟨h1, h2⟩ := close_line_counts h
  simp [braceDelta, h1, h2]

theorem lstrip_ws_append {A m : List Char} (hA : ∀ c ∈ A, isPySpace c = true) :
    lstripL (A ++ m) = lstripL m := by
  induction A with
  | nil => rfl
  | cons a A ih =>
    have ha : isPySpace a = true := hA a (List.mem_cons_self a A)
    have hA2 : ∀ c ∈ A, isPySpace c = true := fun c hc => hA c (List.mem_cons_of_mem a hc)
    simp only [List.cons_append, lstripL, List.dropWhile_cons, ha, if_true]
    exact ih hA2

theorem pyStrip_ws_append {A m : List Char} (hA : ∀ c ∈ A, isPySpace c = true) :
    pyStrip (A ++ m) = pyStrip m := by
  simp only [pyStrip, lstrip_ws_append hA]

theorem lstrip_cons_of_not_ws {c : Char} {r : List Char} (hc : isPySpace c = false) :
    lstripL (c :: r) = c :: r := by
  simp [lstripL, List.dropWhile_cons, hc]

theorem pyIndent_ws_append {W m : List Char} (hW : ∀ c ∈ W, isPySpace c = true)
    (hm : ∃ c r, m = c :: r ∧ isPySpace c = false) : pyIndent (W ++ m) = W := by
  obtain ⟨c, r, rfl, hc⟩ := hm
  have hl : lstripL (W ++ c :: r) = c :: r := by
    rw [lstrip_ws_append hW, lstrip_cons_of_not_ws hc]
  simp only [pyIndent, hl]
  rw [if_neg (by simp)]
  have hlen : (W ++ c :: r).length - (c :: r).length = W.length := by
    simp
  rw [hlen, List.take_left]

theorem take_diff_eq_takeWhile (l : List Char) :
    l.take (l.length - (lstripL l).length) = l.takeWhile isPySpace := by
  have h1 : l.takeWhile isPySpace ++ lstripL l = l :=
    List.takeWhile_append_dropWhile isPySpace l
  have h3 := List.take_left (l.takeWhile isPySpace) (lstripL l)
  rw [h1] at h3
  have hlen : l.length - (lstripL l).length = (l.takeWhile isPySpace).length := by
    have h4 := congrArg List.length h1
    rw [List.length_append] at h4
    omega
  rw [hlen, h3]

theorem pyIndent_all_ws (l : List Char) : ∀ c ∈ pyIndent l, isPySpace c = true := by
  intro c hc
  unfold pyIndent at hc
  by_cases h : (lstripL l).length = 0
  · rw [if_pos h] at hc; cases hc
  · rw [if_neg h, take_diff_eq_takeWhile] at hc
    exact mem_takeWhile_ws hc

theorem subSeg_ws_left {A h n : List Char} (hA : ∀ c ∈ A, isPySpace c = true)
    (hn : ∃ c r, n = c :: r ∧ isPySpace c = false) :
    SubSeg n (A ++ h) ↔ SubSeg n h := by
  obtain ⟨c, r, rfl, hc⟩ := hn
  induction A with
  | nil => rfl
  | cons a A ih =>
    have ha : isPySpace a = true := hA a (List.mem_cons_self a A)
    have hA2 : ∀ x ∈ A, isPySpace x = true := fun x hx => hA x (List.mem_cons_of_mem a hx)
    rw [List.cons_append, subSeg_cons_iff]
    constructor
    · rintro (hl | hs)
      · rcases hl with ⟨b, hb⟩
        injection hb with h1 h2
        rw [h1] at ha
        rw [ha] at hc
        exact absurd hc (by simp)
      · exact (ih hA2).mp hs
    · intro hs
      exact Or.inr ((ih hA2).mpr hs)

theorem subSeg_ws_right {B h n : List Char} (hB : ∀ c ∈ B, isPySpace c = true)
    (hn : ∃ c r, n.reverse = c :: r ∧ isPySpace c = false) :
    SubSeg n (h ++ B) ↔ SubSeg n h := by
  rw [← subSeg_reverse_iff n (h ++ B), List.reverse_append]
  rw [subSeg_ws_left (fun c hc => hB c (List.mem_reverse.mp hc)) hn]
  exact subSeg_reverse_iff n h

theorem subSeg_strip {n l : List Char}
    (hh : ∃ c r, n = c :: r ∧ isPySpace c = false)
    (hl : ∃ c r, n.reverse = c :: r ∧ isPySpace c = false) :
    SubSeg n (pyStrip l) ↔ SubSeg n l := by
  obtain ⟨A, B, hdec, hA, hB⟩ := strip_decomp l
  conv_rhs => rw [hdec]
  rw [List.append_assoc, subSeg_ws_left hA hh,
    subSeg_ws_right hB hl]

/-! ### Token facts -/

theorem flagTok_subSeg_needle : SubSeg flagTok needleTrue :=
  ⟨[], " true".data, by decide⟩

theorem flagTok_head : ∃ c r, flagTok = c :: r ∧ isPySpace c = false := by
  refine ⟨'m', flagTok.tail, ?_, ?_⟩ <;> decide

theorem flagTok_last : ∃ c r, flagTok.reverse = c :: r ∧ isPySpace c = false := by
  refine ⟨':', flagTok.reverse.tail, ?_, ?_⟩ <;> decide

theorem needleTrue_head : ∃ c r, needleTrue = c :: r ∧ isPySpace c = false := by
  refine ⟨'m', needleTrue.tail, ?_, ?_⟩ <;> decide

theorem needleTrue_last : ∃ c r, needleTrue.reverse = c :: r ∧ isPySpace c = false := by
  refine ⟨'e', needleTrue.reverse.tail, ?_, ?_⟩ <;> decide

theorem no_needle_of_no_flag {l : List Char}
    (h : listContains (pyStrip l) flagTok = false) : ¬SubSeg needleTrue l := by
  intro hs
  have h2 : SubSeg flagTok l := subSeg_trans flagTok_subSeg_needle hs
  have h3 : SubSeg flagTok (pyStrip l) := (subSeg_strip flagTok_head flagTok_last).mpr h2
  exact absurd ((listContains_iff _ _).mpr h3) (by simp [h])

/-! ### Evaluating one loop iteration on each kind of line -/

theorem step_out_of_block {v : List Char} {s : TState} {l : List Char}
    (hH : isHeaderLine l = false) (hB : s.in_block = false) :
    toggleStep v s l = (s, [l]) := by
  simp [toggleStep, hH, hB]

theorem strip_ne_close_of_header {l : List Char} (hH : isHeaderLine l = true) :
    ¬pyStrip l = "\x7d".data := by
  intro he
  unfold isHeaderLine at hH
  rw [he] at hH
  exact absurd hH (by decide)

theorem step_header {v : List Char} {s : TState} {l : List Char}
    (hH : isHeaderLine l = true)
    (ho : countChar '\x7b' l = 0) (hc : countChar '\x7d' l = 0)
    (hf : listContains (pyStrip l) flagTok = false) :
    toggleStep v s l = (⟨true, 0, s.modified⟩, [l]) := by
  have hd : braceDelta l = 0 := by simp [braceDelta, ho, hc]
  have hne := strip_ne_close_of_header hH
  simp [toggleStep, hH, hf, hd, ho, hne]

theorem step_in_flag {v : List Char} {s : TState} {l : List Char}
    (hH : isHeaderLine l = false) (hB : s.in_block = true)
    (hf : listContains (pyStrip l) flagTok = true) :
    toggleStep v s l =
      (⟨true, s.brace_level + braceDelta l, true⟩, [pyIndent l ++ flagAssign ++ v]) := by
  obtain ⟨ib, bl, m⟩ := s
  cases hB
  simp [toggleStep, hH, hf]

theorem step_in_neutral {v : List Char} {s : TState} {l : List Char}
    (hH : isHeaderLine l = false) (hB : s.in_block = true)
    (hf : listContains (pyStrip l) flagTok = false)
    (hno : ¬(s.brace_level + braceDelta l = 0 ∧ pyStrip l = "\x7d".data)) :
    toggleStep v s l = (⟨true, s.brace_level + braceDelta l, s.modified⟩, [l]) := by
  obtain ⟨ib, bl, m⟩ := s
  cases hB
  simp only [TState.brace_level] at hno
  simp [toggleStep, hH, hf, hno]

theorem step_close {v : List Char} {s : TState} {l : List Char}
    (hB : s.in_block = true) (hbl : s.brace_level = 1)
    (hstrip : pyStrip l = "\x7d".data) :
    toggleStep v s l = (⟨false, 0, s.modified⟩,
      (if s.modified then [] else [pyIndent l ++ fourSpaces ++ flagAssign ++ v]) ++ [l]) := by
  obtain ⟨ib, bl, m⟩ := s
  cases hB
  simp only [TState.brace_level] at hbl
  cases hbl
  have hH : isHeaderLine l = false := by
    unfold isHeaderLine
    rw [hstrip]
    decide
  have hf : listContains (pyStrip l) flagTok = false := by
    rw [hstrip]; decide
  have hd := close_line_delta hstrip
  have hf2 : listContains "\x7d".data flagTok = false := by decide
  simp [toggleStep, hH, hf, hf2, hd, hstrip]

/-! ### Running the loop over structured line lists -/

theorem toggleGo_append (v : List Char) (s : TState) (L1 L2 : List (List Char)) :
    toggleGo v s (L1 ++ L2) = toggleGo v s L1 ++ toggleGo v (stepsState v s L1) L2 := by
  induction L1 generalizing s with
  | nil => rfl
  | cons l L ih =>
    show (toggleStep v s l).2 ++ toggleGo v (toggleStep v s l).1 (L ++ L2)
        = ((toggleStep v s l).2 ++ toggleGo v (toggleStep v s l).1 L)
          ++ toggleGo v (stepsState v (toggleStep v s l).1 L) L2
    rw [ih, List.append_assoc]

theorem stepsState_append (v : List Char) (s : TState) (L1 L2 : List (List Char)) :
    stepsState v s (L1 ++ L2) = stepsState v (stepsState v s L1) L2 :=
  List.foldl_append _ _ L1 L2

theorem sumDelta_nil : sumDelta [] = 0 := rfl

theorem sumDelta_cons (l : List Char) (ls : List (List Char)) :
    sumDelta (l :: ls) = braceDelta l + sumDelta ls := by
  simp [sumDelta]

theorem sumDelta_append (a b : List (List Char)) :
    sumDelta (a ++ b) = sumDelta a + sumDelta b := by
  simp [sumDelta]

theorem go_out_pass {v : List Char} {s : TState} {L : List (List Char)}
    (hB : s.in_block = false) (hH : ∀ l ∈ L, isHeaderLine l = false) :
    toggleGo v s L = L ∧ stepsState v s L = s := by
  induction L with
  | nil => exact ⟨rfl, rfl⟩
  | cons l L ih =>
    have h1 := step_out_of_block (v := v) (s := s) (hH l (List.mem_cons_self l L)) hB
    have h2 := ih (fun x hx => hH x (List.mem_cons_of_mem l hx))
    constructor
    · show (toggleStep v s l).2 ++ toggleGo v (toggleStep v s l).1 L = l :: L
      rw [h1]
      simpa using h2.1
    · show stepsState v (toggleStep v s l).1 L = s
      rw [h1]
      exact h2.2

theorem go_in_run {v : List Char} {L : List (List Char)} : ∀ {s : TState},
    s.in_block = true →
    (∀ l ∈ L, isHeaderLine l = false) →
    (∀ l ∈ L, listContains (pyStrip l) flagTok = false) →
    (∀ p q, L = p ++ q → p ≠ [] → 1 ≤ s.brace_level + sumDelta p) →
    toggleGo v s L = L ∧
      stepsState v s L = ⟨true, s.brace_level + sumDelta L, s.modified⟩ := by
  induction L with
  | nil =>
    intro s hB _ _ _
    obtain ⟨ib, bl, m⟩ := s
    cases hB
    exact ⟨rfl, by simp [stepsState, sumDelta_nil]⟩
  | cons l L ih =>
    intro s hB hH hf hpos
    obtain ⟨ib, bl, m⟩ := s
    cases hB
    have hl1 : (1 : Int) ≤ bl + sumDelta [l] :=
      hpos [l] L rfl (by simp)
    rw [sumDelta_cons, sumDelta_nil, add_zero] at hl1
    have hno : ¬(bl + braceDelta l = 0 ∧ pyStrip l = "\x7d".data) := by
      rintro ⟨h0, _⟩
      omega
    have hstep : toggleStep v ⟨true, bl, m⟩ l = (⟨true, bl + braceDelta l, m⟩, [l]) :=
      step_in_neutral (v := v) (hH l (List.mem_cons_self l L)) rfl
        (hf l (List.mem_cons_self l L)) hno
    have hpos2 : ∀ p q, L = p ++ q → p ≠ [] →
        (1 : Int) ≤ TState.brace_level ⟨true, bl + braceDelta l, m⟩ + sumDelta p := by
      intro p q hpq hp
      have h0 := hpos (l :: p) q (by rw [hpq]; rfl) (by simp)
      rw [sumDelta_cons] at h0
      have h1 : (1 : Int) ≤ bl + (braceDelta l + sumDelta p) := h0
      show (1 : Int) ≤ bl + braceDelta l + sumDelta p
      omega
    have h2 := ih (s := ⟨true, bl + braceDelta l, m⟩) rfl
      (fun x hx => hH x (List.mem_cons_of_mem l hx))
      (fun x hx => hf x (List.mem_cons_of_mem l hx)) hpos2
    constructor
    · show (toggleStep v ⟨true, bl, m⟩ l).2 ++
        toggleGo v (toggleStep v ⟨true, bl, m⟩ l).1 L = l :: L
      rw [hstep]
      simpa using h2.1
    · show stepsState v (toggleStep v ⟨true, bl, m⟩ l).1 L = _
      rw [hstep]
      have h22 : stepsState v ⟨true, bl + braceDelta l, m⟩ L =
          ⟨true, bl + braceDelta l + sumDelta L, m⟩ := h2.2
      rw [h22, sumDelta_cons]
      have harith : bl + braceDelta l + sumDelta L = bl + (braceDelta l + sumDelta L) := by
        ring
      rw [harith]

theorem go_cons_eq (ls : List (List Char)) {v : List Char} {s s' : TState}
    {l : List Char} {outs : List (List Char)} :
    toggleStep v s l = (s', outs) →
    toggleGo v s (l :: ls) = outs ++ toggleGo v s' ls ∧
      stepsState v s (l :: ls) = stepsState v s' ls := by
  intro hstep
  constructor
  · show (toggleStep v s l).2 ++ toggleGo v (toggleStep v s l).1 ls = _
    rw [hstep]
  · show stepsState v (toggleStep v s l).1 ls = _
    rw [hstep]

/-- Running the loop over a well-formed block whose body contains a flag
line: the header, the body lines around the flag line and the closing line
pass through unchanged, the flag line is replaced, and the loop leaves the
block with the nesting count at zero and the modified marker set. -/
theorem go_block_repl {v : List Char} {s : TState} {hdr fl close : List Char}
    {b1 b2 : List (List Char)}
    (hH : isHeaderLine hdr = true)
    (ho : countChar '\x7b' hdr = 0) (hc : countChar '\x7d' hdr = 0)
    (hfh : listContains (pyStrip hdr) flagTok = false)
    (hb1H : ∀ l ∈ b1, isHeaderLine l = false)
    (hb1f : ∀ l ∈ b1, listContains (pyStrip l) flagTok = false)
    (hflH : isHeaderLine fl = false)
    (hfl : listContains (pyStrip fl) flagTok = true)
    (hb2H : ∀ l ∈ b2, isHeaderLine l = false)
    (hb2f : ∀ l ∈ b2, listContains (pyStrip l) flagTok = false)
    (hpos : ∀ p q, b1 ++ fl :: b2 = p ++ q → p ≠ [] → (1 : Int) ≤ sumDelta p)
    (htot : sumDelta (b1 ++ fl :: b2) = 1)
    (hclose : pyStrip close = "\x7d".data) :
    toggleGo v s (hdr :: ((b1 ++ fl :: b2) ++ [close])) =
      hdr :: (b1 ++ ((pyIndent fl ++ flagAssign ++ v) :: (b2 ++ [close]))) ∧
    stepsState v s (hdr :: ((b1 ++ fl :: b2) ++ [close])) = ⟨false, 0, true⟩ := by
  have hstep1 : toggleStep v s hdr = (⟨true, 0, s.modified⟩, [hdr]) :=
    step_header hH ho hc hfh
  have hpos1 : ∀ p q, b1 = p ++ q → p ≠ [] →
      (1 : Int) ≤ TState.brace_level ⟨true, 0, s.modified⟩ + sumDelta p := by
    intro p q hpq hp
    have h0 := hpos p (q ++ fl :: b2) (by rw [hpq, List.append_assoc]) hp
    show (1 : Int) ≤ 0 + sumDelta p
    omega
  have hb1run := go_in_run (v := v) (s := ⟨true, 0, s.modified⟩) rfl hb1H hb1f hpos1
  have hstepfl : toggleStep v ⟨true, 0 + sumDelta b1, s.modified⟩ fl =
      (⟨true, (0 + sumDelta b1) + braceDelta fl, true⟩,
        [pyIndent fl ++ flagAssign ++ v]) :=
    step_in_flag hflH rfl hfl
  have hpos2 : ∀ p q, b2 = p ++ q → p ≠ [] →
      (1 : Int) ≤ TState.brace_level ⟨true, (0 + sumDelta b1) + braceDelta fl, true⟩
        + sumDelta p := by
    intro p q hpq hp
    have h0 := hpos (b1 ++ fl :: p) q
      (by rw [hpq]; simp [List.append_assoc]) (by simp)
    rw [sumDelta_append, sumDelta_cons] at h0
    show (1 : Int) ≤ (0 + sumDelta b1) + braceDelta fl + sumDelta p
    omega
  have hb2run := go_in_run (v := v)
    (s := ⟨true, (0 + sumDelta b1) + braceDelta fl, true⟩) rfl hb2H hb2f hpos2
  have hbrace : ((0 + sumDelta b1) + braceDelta fl) + sumDelta b2 = 1 := by
    rw [sumDelta_append, sumDelta_cons] at htot
    omega
  have hstepcl : toggleStep v
      ⟨true, ((0 + sumDelta b1) + braceDelta fl) + sumDelta b2, true⟩ close =
      (⟨false, 0, true⟩, [close]) := by
    rw [hbrace]
    have h1 := step_close (v := v) (s := ⟨true, 1, true⟩) rfl rfl hclose
    simpa using h1
  have hX : (b1 ++ fl :: b2) ++ [close] = b1 ++ (fl :: (b2 ++ [close])) := by
    simp [List.append_assoc]
  obtain ⟨hg1, hs1⟩ := go_cons_eq ((b1 ++ fl :: b2) ++ [close]) hstep1
  rw [hX] at hg1 hs1
  rw [toggleGo_append, hb1run.1, hb1run.2] at hg1
  rw [stepsState_append, hb1run.2] at hs1
  obtain ⟨hg2, hs2⟩ := go_cons_eq (b2 ++ [close]) hstepfl
  rw [hg2] at hg1
  rw [hs2] at hs1
  rw [toggleGo_append, hb2run.1, hb2run.2] at hg1
  rw [stepsState_append, hb2run.2] at hs1
  obtain ⟨hg3, hs3⟩ := go_cons_eq ([] : List (List Char)) hstepcl
  rw [hg3] at hg1
  rw [hs3] at hs1
  constructor
  · rw [hX, hg1]
    simp [toggleGo]
  · rw [hX, hs1]
    rfl

/-- Running the loop over a well-formed block whose body contains no flag
line: all lines pass through unchanged except that, when the modified marker
is not yet set, a fresh flag line is emitted immediately before the closing
line, indented four spaces beyond it. -/
theorem go_block_ins {v : List Char} {s : TState} {hdr close : List Char}
    {body : List (List Char)}
    (hH : isHeaderLine hdr = true)
    (ho : countChar '\x7b' hdr = 0) (hc : countChar '\x7d' hdr = 0)
    (hfh : listContains (pyStrip hdr) flagTok = false)
    (hbH : ∀ l ∈ body, isHeaderLine l = false)
    (hbf : ∀ l ∈ body, listContains (pyStrip l) flagTok = false)
    (hpos : ∀ p q, body = p ++ q → p ≠ [] → (1 : Int) ≤ sumDelta p)
    (htot : sumDelta body = 1)
    (hclose : pyStrip close = "\x7d".data) :
    toggleGo v s (hdr :: (body ++ [close])) =
      hdr :: (body ++
        ((if s.modified then [] else [pyIndent close ++ fourSpaces ++ flagAssign ++ v])
          ++ [close])) ∧
    stepsState v s (hdr :: (body ++ [close])) = ⟨false, 0, s.modified⟩ := by
  have hstep1 : toggleStep v s hdr = (⟨true, 0, s.modified⟩, [hdr]) :=
    step_header hH ho hc hfh
  have hpos1 : ∀ p q, body = p ++ q → p ≠ [] →
      (1 : Int) ≤ TState.brace_level ⟨true, 0, s.modified⟩ + sumDelta p := by
    intro p q hpq hp
    have h0 := hpos p q hpq hp
    show (1 : Int) ≤ 0 + sumDelta p
    omega
  have hbrun := go_in_run (v := v) (s := ⟨true, 0, s.modified⟩) rfl hbH hbf hpos1
  have hstepcl : toggleStep v ⟨true, 0 + sumDelta body, s.modified⟩ close =
      (⟨false, 0, s.modified⟩,
        (if s.modified then [] else [pyIndent close ++ fourSpaces ++ flagAssign ++ v])
          ++ [close]) := by
    have h1 : (0 : Int) + sumDelta body = 1 := by omega
    rw [h1]
    exact step_close (v := v) (s := ⟨true, 1, s.modified⟩) rfl rfl hclose
  obtain ⟨hg1, hs1⟩ := go_cons_eq (body ++ [close]) hstep1
  rw [toggleGo_append, hbrun.1, hbrun.2] at hg1
  rw [stepsState_append, hbrun.2] at hs1
  obtain ⟨hg3, hs3⟩ := go_cons_eq ([] : List (List Char)) hstepcl
  rw [hg3] at hg1
  rw [hs3] at hs1
  constructor
  · rw [hg1]
    simp [toggleGo]
  · rw [hs1]
    rfl

/-! ### Facts about splitting into lines and joining with newlines -/

theorem pySplitlines_break_single {c : Char} (hbr : isLineBreak c = true) :
    pySplitlines [c] = [[]] := by
  unfold pySplitlines
  rw [hbr]
  rfl

theorem pySplitlines_crlf (cs : List Char) :
    pySplitlines ('\r' :: '\n' :: cs) = [] :: pySplitlines cs := rfl

theorem pySplitlines_break2 {c d : Char} (hbr : isLineBreak c = true)
    (hne : ¬(c = '\r' ∧ d = '\n')) (cs : List Char) :
    pySplitlines (c :: d :: cs) = [] :: pySplitlines (d :: cs) := by
  conv_lhs => rw [pySplitlines]
  rw [hbr]
  rw [if_pos rfl]
  show (if c = '\r' ∧ d = '\n' then [] :: pySplitlines cs
    else [] :: pySplitlines (d :: cs)) = [] :: pySplitlines (d :: cs)
  rw [if_neg hne]

theorem pySplitlines_char_nil {c : Char} {cs : List Char} (hbr : isLineBreak c = false)
    (hsp : pySplitlines cs = []) : pySplitlines (c :: cs) = [[c]] := by
  conv_lhs => rw [pySplitlines.eq_def]
  dsimp only
  rw [hbr]
  rw [if_neg (by simp), hsp]

theorem pySplitlines_char_cons {c : Char} {cs l0 : List Char} {ls0 : List (List Char)}
    (hbr : isLineBreak c = false) (hsp : pySplitlines cs = l0 :: ls0) :
    pySplitlines (c :: cs) = (c :: l0) :: ls0 := by
  conv_lhs => rw [pySplitlines.eq_def]
  dsimp only
  rw [hbr]
  rw [if_neg (by simp), hsp]

theorem pySplitlines_ne_nil (c : Char) (cs : List Char) : pySplitlines (c :: cs) ≠ [] := by
  by_cases hbr : isLineBreak c = true
  · cases cs with
    | nil => rw [pySplitlines_break_single hbr]; simp
    | cons d cs2 =>
      by_cases hcd : c = '\r' ∧ d = '\n'
      · obtain ⟨rfl, rfl⟩ := hcd
        rw [pySplitlines_crlf]; simp
      · rw [pySplitlines_break2 hbr hcd]; simp
  · rw [Bool.not_eq_true] at hbr
    cases hsp : pySplitlines cs with
    | nil => rw [pySplitlines_char_nil hbr hsp]; simp
    | cons l0 ls0 => rw [pySplitlines_char_cons hbr hsp]; simp

theorem pySplitlines_nil_iff {cs : List Char} : pySplitlines cs = [] ↔ cs = [] := by
  cases cs with
  | nil => simp [pySplitlines]
  | cons c cs => simp [pySplitlines_ne_nil c cs]

theorem getLast?_cons_of_ne {α : Type} {c : α} {l : List α} (h : l ≠ []) :
    (c :: l).getLast? = l.getLast? := by
  cases l with
  | nil => exact absurd rfl h
  | cons x xs => exact List.getLast?_cons_cons

theorem getLast?_mem {α : Type} {l : List α} {a : α} (h : l.getLast? = some a) : a ∈ l := by
  induction l with
  | nil => cases h
  | cons x xs ih =>
    cases xs with
    | nil =>
      simp only [List.getLast?_singleton, Option.some.injEq] at h
      simp [h]
    | cons y ys =>
      rw [List.getLast?_cons_cons] at h
      exact List.mem_cons_of_mem x (ih h)

theorem lines_no_break (t : List Char) :
    ∀ l ∈ pySplitlines t, ∀ c ∈ l, isLineBreak c = false := by
  induction t using pySplitlines.induct with
  | case1 => intro l hl; cases hl
  | case2 d hbr =>
    rw [pySplitlines_break_single hbr]
    intro l hl c hc
    rcases List.mem_cons.mp hl with rfl | h
    · cases hc
    · cases h
  | case3 d hbr d1 cs2 hcond ih =>
    obtain ⟨rfl, rfl⟩ := hcond
    rw [pySplitlines_crlf]
    intro l hl c hc
    rcases List.mem_cons.mp hl with rfl | h
    · cases hc
    · exact ih l h c hc
  | case4 d hbr d1 cs2 hcond ih =>
    rw [pySplitlines_break2 hbr hcond]
    intro l hl c hc
    rcases List.mem_cons.mp hl with rfl | h
    · cases hc
    · exact ih l h c hc
  | case5 d cs2 hbr hsp ih =>
    rw [pySplitlines_char_nil (by simpa using hbr) hsp]
    intro l hl c hc
    rcases List.mem_cons.mp hl with rfl | h
    · rcases List.mem_cons.mp hc with rfl | h2
      · simpa using hbr
      · cases h2
    · cases h
  | case6 d cs2 hbr l0 ls0 hsp ih =>
    rw [pySplitlines_char_cons (by simpa using hbr) hsp]
    intro l hl c hc
    rcases List.mem_cons.mp hl with rfl | h
    · rcases List.mem_cons.mp hc with rfl | h2
      · simpa using hbr
      · exact ih l0 (by rw [hsp]; exact List.mem_cons_self _ _) c h2
    · exact ih l (by rw [hsp]; exact List.mem_cons_of_mem _ h) c hc

theorem splitlines_append_nl {l : List Char} (hl : ∀ c ∈ l, isLineBreak c = false)
    (r : List Char) : pySplitlines (l ++ '\n' :: r) = l :: pySplitlines r := by
  induction l with
  | nil =>
    show pySplitlines ('\n' :: r) = [] :: pySplitlines r
    cases r with
    | nil => rw [pySplitlines_break_single (by decide)]; rfl
    | cons d cs =>
      rw [pySplitlines_break2 (by decide) (by simp)]
  | cons c l ih =>
    have hc : isLineBreak c = false := hl c (List.mem_cons_self c l)
    have hl2 : ∀ x ∈ l, isLineBreak x = false := fun x hx => hl x (List.mem_cons_of_mem c hx)
    show pySplitlines (c :: (l ++ '\n' :: r)) = (c :: l) :: pySplitlines r
    rw [pySplitlines_char_cons hc (ih hl2)]

theorem splitlines_of_no_break {l : List Char} (hne : l ≠ [])
    (hl : ∀ c ∈ l, isLineBreak c = false) : pySplitlines l = [l] := by
  induction l with
  | nil => exact absurd rfl hne
  | cons c l ih =>
    have hc : isLineBreak c = false := hl c (List.mem_cons_self c l)
    have hl2 : ∀ x ∈ l, isLineBreak x = false := fun x hx => hl x (List.mem_cons_of_mem c hx)
    cases l with
    | nil => exact pySplitlines_char_nil hc rfl
    | cons y ys =>
      rw [pySplitlines_char_cons hc (ih (by simp) hl2)]

theorem splitlines_joinN {ls : List (List Char)} (hne : ls ≠ [])
    (hlast : ls.getLast? ≠ some [])
    (hbr : ∀ l ∈ ls, ∀ c ∈ l, isLineBreak c = false) :
    pySplitlines (joinN ls) = ls := by
  induction ls with
  | nil => exact absurd rfl hne
  | cons l ls ih =>
    cases ls with
    | nil =>
      show pySplitlines l = [l]
      have hlne : l ≠ [] := by
        intro h
        rw [h] at hlast
        exact hlast rfl
      exact splitlines_of_no_break hlne (hbr l (List.mem_cons_self l []))
    | cons x xs =>
      show pySplitlines (l ++ '\n' :: joinN (x :: xs)) = l :: (x :: xs)
      rw [splitlines_append_nl (hbr l (List.mem_cons_self l _))]
      rw [ih (by simp) (by rwa [getLast?_cons_of_ne (by simp)] at hlast)
        (fun y hy => hbr y (List.mem_cons_of_mem l hy))]

theorem joinN_ne_nil {ls : List (List Char)} (hne : ls ≠ [])
    (hlast : ls.getLast? ≠ some []) : joinN ls ≠ [] := by
  cases ls with
  | nil => exact absurd rfl hne
  | cons l ls =>
    cases ls with
    | nil =>
      show l ≠ []
      intro h; rw [h] at hlast; exact hlast rfl
    | cons x xs =>
      show l ++ '\n' :: joinN (x :: xs) ≠ []
      simp

theorem joinN_getLast_ne_nl {ls : List (List Char)} (hne : ls ≠ [])
    (hlast : ls.getLast? ≠ some [])
    (hbr : ∀ l ∈ ls, ∀ c ∈ l, isLineBreak c = false) :
    (joinN ls).getLast? ≠ some '\n' := by
  induction ls with
  | nil => exact absurd rfl hne
  | cons l ls ih =>
    cases ls with
    | nil =>
      show l.getLast? ≠ some '\n'
      intro h
      have hm := getLast?_mem h
      have := hbr l (List.mem_cons_self l []) '\n' hm
      simp [isLineBreak] at this
    | cons x xs =>
      show (l ++ '\n' :: joinN (x :: xs)).getLast? ≠ some '\n'
      have hlast2 : (x :: xs).getLast? ≠ some [] := by
        rwa [getLast?_cons_of_ne (by simp)] at hlast
      have hJne : joinN (x :: xs) ≠ [] := joinN_ne_nil (by simp) hlast2
      have ihx := ih (by simp) hlast2 (fun y hy => hbr y (List.mem_cons_of_mem l hy))
      rw [List.getLast?_append, getLast?_cons_of_ne hJne]
      rw [List.getLast?_eq_getLast _ hJne]
      rw [List.getLast?_eq_getLast _ hJne] at ihx
      exact ihx

/-- In every branch of the loop body the emitted lines are: the input line,
a replacement flag line, or an inserted flag line followed by the input
line. -/
theorem step_out_shape (v : List Char) (s : TState) (l : List Char) :
    (toggleStep v s l).2 = [l] ∨
    (toggleStep v s l).2 = [pyIndent l ++ flagAssign ++ v] ∨
    (toggleStep v s l).2 = [pyIndent l ++ fourSpaces ++ flagAssign ++ v, l] := by
  simp only [toggleStep]
  split_ifs <;> simp

theorem mem_pyIndent {c : Char} {l : List Char} (h : c ∈ pyIndent l) : c ∈ l := by
  unfold pyIndent at h
  by_cases h0 : (lstripL l).length = 0
  · rw [if_pos h0] at h; cases h
  · rw [if_neg h0] at h; exact List.mem_of_mem_take h

theorem go_no_break {v : List Char} (hv : ∀ c ∈ v, isLineBreak c = false) :
    ∀ {ls : List (List Char)} {s : TState},
    (∀ l ∈ ls, ∀ c ∈ l, isLineBreak c = false) →
    ∀ l ∈ toggleGo v s ls, ∀ c ∈ l, isLineBreak c = false := by
  intro ls
  induction ls with
  | nil => intro s _ l hl; cases hl
  | cons x xs ih =>
    intro s hin l hl c hc
    have hx : ∀ d ∈ x, isLineBreak d = false := hin x (List.mem_cons_self x xs)
    have hfa : ∀ d ∈ flagAssign, isLineBreak d = false := by decide
    have hfs : ∀ d ∈ fourSpaces, isLineBreak d = false := by decide
    have hl2 : l ∈ (toggleStep v s x).2 ++ toggleGo v (toggleStep v s x).1 xs := hl
    rcases List.mem_append.mp hl2 with h | h
    · rcases step_out_shape v s x with hs | hs | hs <;> rw [hs] at h
      · rcases List.mem_cons.mp h with rfl | h2
        · exact hx c hc
        · cases h2
      · rcases List.mem_cons.mp h with rfl | h2
        · rcases List.mem_append.mp hc with hd | hd
          · rcases List.mem_append.mp hd with hd | hd
            · exact hx c (mem_pyIndent hd)
            · exact hfa c hd
          · exact hv c hd
        · cases h2
      · rcases List.mem_cons.mp h with rfl | h2
        · rcases List.mem_append.mp hc with hd | hd
          · rcases List.mem_append.mp hd with hd | hd
            · rcases List.mem_append.mp hd with hd | hd
              · exact hx c (mem_pyIndent hd)
              · exact hfs c hd
            · exact hfa c hd
          · exact hv c hd
        · rcases List.mem_cons.mp h2 with rfl | h3
          · exact hx c hc
          · cases h3
    · exact ih (fun y hy => hin y (List.mem_cons_of_mem x hy)) l h c hc

theorem go_ne_nil_last {v : List Char} :
    ∀ {ls : List (List Char)} {s : TState}, ls ≠ [] → ls.getLast? ≠ some [] →
    toggleGo v s ls ≠ [] ∧ (toggleGo v s ls).getLast? ≠ some [] := by
  intro ls
  induction ls with
  | nil => intro s h _; exact absurd rfl h
  | cons x xs ih =>
    intro s _ hlast
    cases xs with
    | nil =>
      have hxne : x ≠ [] := by intro h; rw [h] at hlast; exact hlast rfl
      have hfa : flagAssign ≠ [] := by decide
      have hgo : toggleGo v s [x] = (toggleStep v s x).2 := by
        show (toggleStep v s x).2 ++ toggleGo v (toggleStep v s x).1 [] = _
        simp [toggleGo]
      rw [hgo]
      rcases step_out_shape v s x with hs | hs | hs <;> rw [hs]
      · refine ⟨by simp, ?_⟩
        simp only [List.getLast?_singleton]
        simpa using hxne
      · refine ⟨by simp, ?_⟩
        simp only [List.getLast?_singleton]
        simp [List.append_eq_nil, hfa]
      · refine ⟨by simp, ?_⟩
        rw [getLast?_cons_of_ne (by simp)]
        simp only [List.getLast?_singleton]
        simpa using hxne
    | cons y ys =>
      have hlast2 : (y :: ys).getLast? ≠ some [] := by
        rwa [getLast?_cons_of_ne (by simp)] at hlast
      have ih2 := ih (s := (toggleStep v s x).1) (by simp) hlast2
      constructor
      · show (toggleStep v s x).2 ++ toggleGo v (toggleStep v s x).1 (y :: ys) ≠ []
        intro h
        exact ih2.1 (List.append_eq_nil.mp h).2
      · show ((toggleStep v s x).2 ++
          toggleGo v (toggleStep v s x).1 (y :: ys)).getLast? ≠ some []
        rw [List.getLast?_append, List.getLast?_eq_getLast _ ih2.1]
        have h3 := ih2.2
        rw [List.getLast?_eq_getLast _ ih2.1] at h3
        exact h3

theorem subSeg_append_right {n h : List Char} (b : List Char) (hs : SubSeg n h) :
    SubSeg n (h ++ b) := by
  rcases hs with ⟨x, y, rfl⟩
  exact ⟨x, y ++ b, by simp⟩

theorem subSeg_append_left {n h : List Char} (a : List Char) (hs : SubSeg n h) :
    SubSeg n (a ++ h) := by
  rcases hs with ⟨x, y, rfl⟩
  exact ⟨a ++ x, y, by simp⟩

/-- A needle without a newline occurs in the newline-join of a list of lines
exactly when it occurs in one of the lines. -/
theorem subSeg_joinN {n : List Char} (hn : '\n' ∉ n) :
    ∀ {ls : List (List Char)}, ls ≠ [] →
    (SubSeg n (joinN ls) ↔ ∃ l ∈ ls, SubSeg n l) := by
  intro ls
  induction ls with
  | nil => intro h; exact absurd rfl h
  | cons l ls ih =>
    intro _
    cases ls with
    | nil =>
      show SubSeg n l ↔ _
      constructor
      · intro h; exact ⟨l, List.mem_cons_self l [], h⟩
      · rintro ⟨l2, hl2, hs⟩
        rcases List.mem_cons.mp hl2 with rfl | h2
        · exact hs
        · cases h2
    | cons x xs =>
      show SubSeg n (l ++ '\n' :: joinN (x :: xs)) ↔ _
      constructor
      · intro h
        rcases subSeg_across hn h with h1 | h1
        · exact ⟨l, List.mem_cons_self _ _, h1⟩
        · rcases (ih (by simp)).mp h1 with ⟨l2, hl2, hs⟩
          exact ⟨l2, List.mem_cons_of_mem l hl2, hs⟩
      · rintro ⟨l2, hl2, hs⟩
        rcases List.mem_cons.mp hl2 with rfl | h2
        · exact subSeg_append_right _ hs
        · have h3 : SubSeg n (joinN (x :: xs)) := (ih (by simp)).mpr ⟨l2, h2, hs⟩
          have h4 := subSeg_append_left (l ++ ['\n']) h3
          simpa [List.append_assoc] using h4

/-- The structural properties of a freshly written flag line `W ++
"mp_mod_optional: " ++ value` with whitespace indentation W. -/
theorem flag_line_props {W : List Char} (hW : ∀ c ∈ W, isPySpace c = true) (v : Bool) :
    isHeaderLine (W ++ (flagAssign ++ pyValue v)) = false ∧
    listContains (pyStrip (W ++ (flagAssign ++ pyValue v))) flagTok = true ∧
    braceDelta (W ++ (flagAssign ++ pyValue v)) = 0 ∧
    pyIndent (W ++ (flagAssign ++ pyValue v)) = W := by
  have hstrip : pyStrip (W ++ (flagAssign ++ pyValue v)) = pyStrip (flagAssign ++ pyValue v) :=
    pyStrip_ws_append hW
  have hob : countChar '\x7b' W = 0 := by
    refine countChar_eq_zero ?_
    intro x hx he; rw [he] at hx; have := hW _ hx; simp [isPySpace] at this
  have hcb : countChar '\x7d' W = 0 := by
    refine countChar_eq_zero ?_
    intro x hx he; rw [he] at hx; have := hW _ hx; simp [isPySpace] at this
  refine ⟨?_, ?_, ?_, ?_⟩
  · unfold isHeaderLine
    rw [hstrip]
    cases v <;> decide
  · rw [hstrip]
    cases v <;> decide
  · unfold braceDelta
    rw [countChar_append '\x7b' W (flagAssign ++ pyValue v),
      countChar_append '\x7d' W (flagAssign ++ pyValue v), hob, hcb]
    cases v <;> decide
  · exact pyIndent_ws_append hW ⟨'m', "p_mod_optional: ".data ++ pyValue v, rfl, by decide⟩

/-- Occurrence of the read needle in a freshly written flag line, by the
written value. -/
theorem needle_in_flag_line {W : List Char} (hW : ∀ c ∈ W, isPySpace c = true) (v : Bool) :
    (SubSeg needleTrue (W ++ (flagAssign ++ pyValue v)) ↔ v = true) := by
  cases v with
  | true =>
    simp only [iff_true]
    refine ⟨W, [], ?_⟩
    simp only [List.append_nil]
    congr 1
  | false =>
    rw [subSeg_ws_left hW needleTrue_head]
    constructor
    · intro h
      have := (listContains_iff _ _).mpr h
      revert this
      decide
    · intro h; cases h

/-- Converts the decidable prefix-sum form of brace positivity into the
decomposition form used by the run lemmas. -/
theorem pos_of_take {body : List (List Char)}
    (h : ∀ k, k < body.length → (1 : Int) ≤ sumDelta (body.take (k + 1))) :
    ∀ p q, body = p ++ q → p ≠ [] → (1 : Int) ≤ sumDelta p := by
  intro p q hpq hp
  have hpl : 1 ≤ p.length := by
    cases p with
    | nil => exact absurd rfl hp
    | cons a as => simp
  have hle : p.length ≤ body.length := by rw [hpq]; simp
  have hk : p.length - 1 < body.length := by omega
  have h2 := h (p.length - 1) hk
  have h3 : body.take (p.length - 1 + 1) = p := by
    have he : p.length - 1 + 1 = p.length := by omega
    rw [he, hpq]
    exact List.take_left _ _
  rwa [h3] at h2

/-- Appending a final newline to a text whose last character is not a line
break does not change the line split. -/
theorem splitlines_final_nl : ∀ {u : List Char}, u ≠ [] →
    (∀ c, u.getLast? = some c → isLineBreak c = false) →
    pySplitlines (u ++ ['\n']) = pySplitlines u := by
  intro u
  induction u using pySplitlines.induct with
  | case1 => intro h _; exact absurd rfl h
  | case2 d hbr =>
    intro _ hlast
    have := hlast d rfl
    rw [this] at hbr
    cases hbr
  | case3 d hbr d1 cs2 hcond ih =>
    obtain ⟨rfl, rfl⟩ := hcond
    intro _ hlast
    cases hcs2 : cs2 with
    | nil =>
      subst hcs2
      have := hlast '\n' rfl
      simp [isLineBreak] at this
    | cons y ys =>
      subst hcs2
      show pySplitlines ('\r' :: '\n' :: ((y :: ys) ++ ['\n'])) = _
      rw [pySplitlines_crlf ((y :: ys) ++ ['\n']), pySplitlines_crlf (y :: ys)]
      rw [ih (by simp) (fun c hc => hlast c (by
        rw [getLast?_cons_of_ne (by simp), getLast?_cons_of_ne (by simp)]
        exact hc))]
  | case4 d hbr d1 cs2 hcond ih =>
    intro _ hlast
    show pySplitlines (d :: d1 :: (cs2 ++ ['\n'])) = pySplitlines (d :: d1 :: cs2)
    rw [pySplitlines_break2 hbr hcond (cs2 ++ ['\n']), pySplitlines_break2 hbr hcond cs2]
    have hih : pySplitlines (d1 :: (cs2 ++ ['\n'])) = pySplitlines (d1 :: cs2) :=
      ih (by simp) (fun c hc => hlast c (by
        rw [getLast?_cons_of_ne (by simp)]
        exact hc))
    rw [hih]
  | case5 d cs2 hbr hsp ih =>
    intro _ hlast
    have hcs2 : cs2 = [] := pySplitlines_nil_iff.mp hsp
    subst hcs2
    show pySplitlines [d, '\n'] = pySplitlines [d]
    have hd : isLineBreak d = false := by simpa using hbr
    rw [pySplitlines_char_cons hd (pySplitlines_break_single (by decide))]
    rw [pySplitlines_char_nil hd (show pySplitlines [] = [] from rfl)]
  | case6 d cs2 hbr l0 ls0 hsp ih =>
    intro _ hlast
    have hd : isLineBreak d = false := by simpa using hbr
    have hcs2 : cs2 ≠ [] := by
      intro h; rw [h] at hsp; cases hsp
    show pySplitlines (d :: (cs2 ++ ['\n'])) = _
    have hih := ih hcs2 (fun c hc => hlast c (by
      rw [getLast?_cons_of_ne hcs2]
      exact hc))
    rw [pySplitlines_char_cons hd (hih.trans hsp), pySplitlines_char_cons hd hsp]

/-- A text whose last character is not a line break splits into lines whose
last line is nonempty. -/
theorem splitlines_last_ne_nil : ∀ {u : List Char}, u ≠ [] →
    (∀ c, u.getLast? = some c → isLineBreak c = false) →
    (pySplitlines u).getLast? ≠ some [] := by
  intro u
  induction u using pySplitlines.induct with
  | case1 => intro h _; exact absurd rfl h
  | case2 d hbr =>
    intro _ hlast
    have := hlast d rfl
    rw [this] at hbr
    cases hbr
  | case3 d hbr d1 cs2 hcond ih =>
    obtain ⟨rfl, rfl⟩ := hcond
    intro _ hlast
    cases hcs2 : cs2 with
    | nil =>
      subst hcs2
      have := hlast '\n' rfl
      simp [isLineBreak] at this
    | cons y ys =>
      subst hcs2
      rw [pySplitlines_crlf]
      have hih := ih (by simp) (fun c hc => hlast c (by
        rw [getLast?_cons_of_ne (by simp), getLast?_cons_of_ne (by simp)]
        exact hc))
      rwa [getLast?_cons_of_ne (by
        intro h; exact pySplitlines_ne_nil y ys h)]
  | case4 d hbr d1 cs2 hcond ih =>
    intro _ hlast
    rw [pySplitlines_break2 hbr hcond]
    have hih := ih (by simp) (fun c hc => hlast c (by
      rw [getLast?_cons_of_ne (by simp)]
      exact hc))
    rwa [getLast?_cons_of_ne (by
      intro h; exact pySplitlines_ne_nil d1 cs2 h)]
  | case5 d cs2 hbr hsp ih =>
    intro _ hlast
    have hd : isLineBreak d = false := by simpa using hbr
    rw [pySplitlines_char_nil hd hsp]
    simp
  | case6 d cs2 hbr l0 ls0 hsp ih =>
    intro _ hlast
    have hd : isLineBreak d = false := by simpa using hbr
    have hcs2 : cs2 ≠ [] := by
      intro h; rw [h] at hsp; cases hsp
    rw [pySplitlines_char_cons hd hsp]
    have hih := ih hcs2 (fun c hc => hlast c (by
      rw [getLast?_cons_of_ne hcs2]
      exact hc))
    rw [hsp] at hih
    cases ls0 with
    | nil =>
      simp
    | cons z zs =>
      rw [getLast?_cons_of_ne (by simp)]
      rwa [getLast?_cons_of_ne (by simp)] at hih

/-- The full rewrite of a manifest line list holding one well-formed
mod_package block whose body contains a flag line. -/
theorem toggle_repl_output {v : List Char} {pre b1 b2 post : List (List Char)}
    {hdr fl close : List Char}
    (hpreH : ∀ l ∈ pre, isHeaderLine l = false)
    (hH : isHeaderLine hdr = true)
    (ho : countChar '\x7b' hdr = 0) (hc : countChar '\x7d' hdr = 0)
    (hfh : listContains (pyStrip hdr) flagTok = false)
    (hb1H : ∀ l ∈ b1, isHeaderLine l = false)
    (hb1f : ∀ l ∈ b1, listContains (pyStrip l) flagTok = false)
    (hflH : isHeaderLine fl = false)
    (hfl : listContains (pyStrip fl) flagTok = true)
    (hb2H : ∀ l ∈ b2, isHeaderLine l = false)
    (hb2f : ∀ l ∈ b2, listContains (pyStrip l) flagTok = false)
    (hpos : ∀ p q, b1 ++ fl :: b2 = p ++ q → p ≠ [] → (1 : Int) ≤ sumDelta p)
    (htot : sumDelta (b1 ++ fl :: b2) = 1)
    (hclose : pyStrip close = "\x7d".data)
    (hpostH : ∀ l ∈ post, isHeaderLine l = false) :
    toggleGo v initState (pre ++ ((hdr :: ((b1 ++ fl :: b2) ++ [close])) ++ post)) =
      pre ++ ((hdr :: (b1 ++ ((pyIndent fl ++ flagAssign ++ v) :: (b2 ++ [close])))) ++ post) := by
  rw [toggleGo_append]
  have hpre := go_out_pass (v := v) (s := initState) rfl hpreH
  rw [hpre.1, hpre.2, toggleGo_append]
  have hblock := go_block_repl (v := v) (s := initState) hH ho hc hfh hb1H hb1f hflH hfl
    hb2H hb2f hpos htot hclose
  rw [hblock.1, hblock.2]
  have hpost := go_out_pass (v := v) (s := ⟨false, 0, true⟩) rfl hpostH
  rw [hpost.1]

/-- The full rewrite of a manifest line list holding one well-formed
mod_package block whose body contains no flag line: a flag line is inserted
before the closing line. -/
theorem toggle_ins_output {v : List Char} {pre body post : List (List Char)}
    {hdr close : List Char}
    (hpreH : ∀ l ∈ pre, isHeaderLine l = false)
    (hH : isHeaderLine hdr = true)
    (ho : countChar '\x7b' hdr = 0) (hc : countChar '\x7d' hdr = 0)
    (hfh : listContains (pyStrip hdr) flagTok = false)
    (hbH : ∀ l ∈ body, isHeaderLine l = false)
    (hbf : ∀ l ∈ body, listContains (pyStrip l) flagTok = false)
    (hpos : ∀ p q, body = p ++ q → p ≠ [] → (1 : Int) ≤ sumDelta p)
    (htot : sumDelta body = 1)
    (hclose : pyStrip close = "\x7d".data)
    (hpostH : ∀ l ∈ post, isHeaderLine l = false) :
    toggleGo v initState (pre ++ ((hdr :: (body ++ [close])) ++ post)) =
      pre ++ ((hdr :: (body ++
        ([pyIndent close ++ fourSpaces ++ flagAssign ++ v] ++ [close]))) ++ post) := by
  rw [toggleGo_append]
  have hpre := go_out_pass (v := v) (s := initState) rfl hpreH
  rw [hpre.1, hpre.2, toggleGo_append]
  have hblock := go_block_ins (v := v) (s := initState) hH ho hc hfh hbH hbf hpos htot hclose
  rw [hblock.1, hblock.2]
  have hpost := go_out_pass (v := v) (s := ⟨false, 0, initState.modified⟩) rfl hpostH
  rw [hpost.1]
  rfl

/-- After writing value v into a manifest consisting of one well-formed
mod_package block with a single flag line (and no flag text anywhere else),
the read operation reports exactly v. -/
theorem read_after_toggle (t : String) (v : Bool) (pre b1 b2 post : List (List Char))
    (hdr fl close : List Char)
    (hsplit : pySplitlines t.data = pre ++ ((hdr :: ((b1 ++ fl :: b2) ++ [close])) ++ post))
    (hpreH : ∀ l ∈ pre, isHeaderLine l = false)
    (hpref : ∀ l ∈ pre, listContains (pyStrip l) flagTok = false)
    (hH : isHeaderLine hdr = true)
    (ho : countChar '\x7b' hdr = 0) (hc : countChar '\x7d' hdr = 0)
    (hfh : listContains (pyStrip hdr) flagTok = false)
    (hb1H : ∀ l ∈ b1, isHeaderLine l = false)
    (hb1f : ∀ l ∈ b1, listContains (pyStrip l) flagTok = false)
    (hflH : isHeaderLine fl = false)
    (hfl : listContains (pyStrip fl) flagTok = true)
    (hb2H : ∀ l ∈ b2, isHeaderLine l = false)
    (hb2f : ∀ l ∈ b2, listContains (pyStrip l) flagTok = false)
    (hpos : ∀ k, k < (b1 ++ fl :: b2).length →
      (1 : Int) ≤ sumDelta ((b1 ++ fl :: b2).take (k + 1)))
    (htot : sumDelta (b1 ++ fl :: b2) = 1)
    (hclose : pyStrip close = "\x7d".data)
    (hpostH : ∀ l ∈ post, isHeaderLine l = false)
    (hpostf : ∀ l ∈ post, listContains (pyStrip l) flagTok = false) :
    read_manifest_from_text (toggle_manifest_text t v) = v := by
  have hdata : (toggle_manifest_text t v).data =
      joinN (pre ++ ((hdr :: (b1 ++ ((pyIndent fl ++ flagAssign ++ pyValue v) ::
        (b2 ++ [close])))) ++ post)) := by
    show joinN (toggleGo (pyValue v) initState (pySplitlines t.data)) = _
    rw [hsplit, toggle_repl_output hpreH hH ho hc hfh hb1H hb1f hflH hfl hb2H hb2f
      (pos_of_take hpos) htot hclose hpostH]
  have hLne : (pre ++ ((hdr :: (b1 ++ ((pyIndent fl ++ flagAssign ++ pyValue v) ::
      (b2 ++ [close])))) ++ post)) ≠ [] := by simp
  unfold read_manifest_from_text
  rw [hdata]
  cases v with
  | true =>
    rw [listContains_iff]
    rw [subSeg_joinN (by decide) hLne]
    refine ⟨pyIndent fl ++ flagAssign ++ pyValue true, by simp, ?_⟩
    rw [List.append_assoc]
    exact (needle_in_flag_line (pyIndent_all_ws fl) true).mpr rfl
  | false =>
    cases hb : listContains
        (joinN (pre ++ ((hdr :: (b1 ++ ((pyIndent fl ++ flagAssign ++ pyValue false) ::
          (b2 ++ [close])))) ++ post))) needleTrue with
    | false => rfl
    | true =>
      exfalso
      have hsub := (listContains_iff _ _).mp hb
      rw [subSeg_joinN (by decide) hLne] at hsub
      obtain ⟨l, hl, hs⟩ := hsub
      simp only [List.mem_append, List.mem_cons, List.mem_singleton] at hl
      rcases hl with hl | (rfl | hl) | hl
      · exact no_needle_of_no_flag (hpref l hl) hs
      · exact no_needle_of_no_flag hfh hs
      · rcases hl with hl | rfl | hl
        · exact no_needle_of_no_flag (hb1f l hl) hs
        · rw [List.append_assoc] at hs
          have := (needle_in_flag_line (pyIndent_all_ws fl) false).mp hs
          cases this
        · rcases hl with hl | (rfl | h0)
          · exact no_needle_of_no_flag (hb2f l hl) hs
          · refine no_needle_of_no_flag ?_ hs
            rw [hclose]
            decide
          · cases h0
      · exact no_needle_of_no_flag (hpostf l hl) hs

/-! ### Per-line characterisation of the nesting tracker -/

theorem step_fst_level (v : List Char) (s : TState) (l : List Char) :
    (toggleStep v s l).1.brace_level =
      if isHeaderLine l = true then (countChar '\x7b' l : Int) + braceDelta l
      else if s.in_block = true then s.brace_level + braceDelta l
      else s.brace_level := by
  obtain ⟨ib, bl, m⟩ := s
  have hclosef : listContains ['\x7d'] flagTok = false := by decide
  by_cases h1 : isHeaderLine l = true
  · by_cases h2 : listContains (pyStrip l) flagTok = true
    · simp [toggleStep, h1, h2]
    · by_cases h3 : (countChar '\x7b' l : Int) + braceDelta l = 0 ∧ pyStrip l = "\x7d".data
      · simp [toggleStep, h1, h2, h3, hclosef]
      · simp [toggleStep, h1, h2, h3]
  · cases ib
    · simp [toggleStep, h1]
    · by_cases h2 : listContains (pyStrip l) flagTok = true
      · simp [toggleStep, h1, h2]
      · by_cases h3 : bl + braceDelta l = 0 ∧ pyStrip l = "\x7d".data
        · simp [toggleStep, h1, h2, h3, hclosef]
        · simp [toggleStep, h1, h2, h3]

theorem step_exit_iff (v : List Char) (s : TState) (l : List Char)
    (h : s.in_block = true ∨ isHeaderLine l = true) :
    ((toggleStep v s l).1.in_block = false ↔
      ((if isHeaderLine l = true then (countChar '\x7b' l : Int) else s.brace_level)
        + braceDelta l = 0 ∧ pyStrip l = "\x7d".data)) := by
  obtain ⟨ib, bl, m⟩ := s
  have hclosef : listContains ['\x7d'] flagTok = false := by decide
  by_cases h1 : isHeaderLine l = true
  · by_cases h2 : listContains (pyStrip l) flagTok = true
    · simp only [toggleStep, h1, if_true]
      constructor
      · intro hx
        simp [h2] at hx
      · rintro ⟨h3, h4⟩
        rw [h4] at h2
        rw [h2] at hclosef
        cases hclosef
    · by_cases h3 : (countChar '\x7b' l : Int) + braceDelta l = 0 ∧ pyStrip l = "\x7d".data
      · simp [toggleStep, h1, h2, h3, hclosef]
      · simp [toggleStep, h1, h2, h3]
  · rcases h with h | h
    · simp only [TState.in_block] at h
      subst h
      by_cases h2 : listContains (pyStrip l) flagTok = true
      · simp only [toggleStep, h1]
        constructor
        · intro hx
          simp [h2] at hx
        · rintro ⟨h3, h4⟩
          rw [h4] at h2
          rw [h2] at hclosef
          cases hclosef
      · by_cases h3 : bl + braceDelta l = 0 ∧ pyStrip l = "\x7d".data
        · simp [toggleStep, h1, h2, h3, hclosef]
        · simp [toggleStep, h1, h2, h3]
    · exact absurd h h1

/-! ### Claim theorems -/

/-- C2: in the write operation, brace nesting is tracked line by line: at a
header line the count is initialised to the header line's own opening-brace
count and the line's brace occurrences are then added and subtracted (so the
level after the header is its opening count plus its net contribution); on
every further line inside the block the line's opening braces are added and
its closing braces subtracted; and while inside a block the tracker leaves
block mode exactly when the count returns to zero on a line whose stripped
content is the closing brace, which marks the block's closing line. -/
theorem brace_tracking_per_line (v : List Char) (s : TState) (l : List Char) :
    (isHeaderLine l = true →
      (toggleStep v s l).1.brace_level = (countChar '\x7b' l : Int) + braceDelta l) ∧
    (isHeaderLine l = false → s.in_block = true →
      (toggleStep v s l).1.brace_level = s.brace_level + braceDelta l) ∧
    ((s.in_block = true ∨ isHeaderLine l = true) →
      ((toggleStep v s l).1.in_block = false ↔
        ((if isHeaderLine l = true then (countChar '\x7b' l : Int) else s.brace_level)
          + braceDelta l = 0 ∧ pyStrip l = "\x7d".data))) := by
  refine ⟨?_, ?_, ?_⟩
  · intro h1
    rw [step_fst_level, if_pos h1]
  · intro h1 h2
    rw [step_fst_level, if_neg (by simp [h1]), if_pos h2]
  · exact step_exit_iff v s l

/-- Witness for C2 at concrete inputs: a header line with one opening brace
(level 1 + 1 = 2 by the double count), an interior line with one opening
brace from level 2, and a bare closing line reached at level 1. -/
theorem brace_tracking_per_line_witness :
    (toggleStep "true".data initState "mod_package: .a \x7b".data).1.brace_level = 2 ∧
    (toggleStep "true".data ⟨true, 2, false⟩ "    foo \x7b".data).1.brace_level = 3 ∧
    (toggleStep "true".data ⟨true, 1, true⟩ "  \x7d".data).1.in_block = false := by
  refine ⟨?_, ?_, ?_⟩
  · have h := (brace_tracking_per_line "true".data initState "mod_package: .a \x7b".data).1
      (by decide)
    rw [h]; decide
  · have h := (brace_tracking_per_line "true".data ⟨true, 2, false⟩ "    foo \x7b".data).2.1
      (by decide) rfl
    rw [h]; decide
  · have h := (brace_tracking_per_line "true".data ⟨true, 1, true⟩ "  \x7d".data).2.2
      (Or.inl rfl)
    rw [h]
    refine ⟨by decide, by decide⟩

/-- C9: for any record count n at least 1, any sequence of move-up and
move-down commands starting from cursor index 0 keeps the cursor within
[0, n-1], with no wraparound: move-up at 0 stays at 0, move-down at n-1
stays at n-1. -/
theorem cursor_clamped (n : Int) (hn : 1 ≤ n) (keys : List MenuKey) :
    (0 ≤ runMenu n keys ∧ runMenu n keys ≤ n - 1) ∧
    menuMove n 0 MenuKey.up = 0 ∧ menuMove n (n - 1) MenuKey.down = n - 1 := by
  refine ⟨?_, ?_, ?_⟩
  · have key : ∀ (ks : List MenuKey) (i : Int), 0 ≤ i → i ≤ n - 1 →
        0 ≤ ks.foldl (menuMove n) i ∧ ks.foldl (menuMove n) i ≤ n - 1 := by
      intro ks
      induction ks with
      | nil => intro i h1 h2; exact ⟨h1, h2⟩
      | cons k ks ih =>
        intro i h1 h2
        have hstep : 0 ≤ menuMove n i k ∧ menuMove n i k ≤ n - 1 := by
          cases k <;> simp [menuMove] <;> omega
        exact ih _ hstep.1 hstep.2
    exact key keys 0 le_rfl (by omega)
  · simp [menuMove]
  · simp [menuMove]

/-- Witness for C9 with three records and a concrete command sequence. -/
theorem cursor_clamped_witness :
    (0 ≤ runMenu 3 [MenuKey.up, MenuKey.down, MenuKey.down, MenuKey.down, MenuKey.up] ∧
      runMenu 3 [MenuKey.up, MenuKey.down, MenuKey.down, MenuKey.down, MenuKey.up] ≤ 3 - 1) ∧
    menuMove 3 0 MenuKey.up = 0 ∧ menuMove 3 (3 - 1) MenuKey.down = 3 - 1 :=
  cursor_clamped 3 (by decide) [MenuKey.up, MenuKey.down, MenuKey.down, MenuKey.down, MenuKey.up]

theorem tryQuoted_ne_nil {cs nm : List Char} (h : tryQuoted cs = some nm) : nm ≠ [] := by
  simp only [tryQuoted] at h
  split_ifs at h with h1 h2 h3
  · injection h with h4
    subst h4
    intro hn
    rw [hn] at h2
    exact h2 rfl

theorem findDisplayName_ne_nil : ∀ {t nm : List Char},
    findDisplayName t = some nm → nm ≠ [] := by
  intro t
  induction t with
  | nil => intro nm h; cases h
  | cons c cs ih =>
    intro nm h
    unfold findDisplayName at h
    by_cases hd : leadsWith dnTok (c :: cs) = true
    · rw [if_pos hd] at h
      cases htq : tryQuoted ((c :: cs).drop dnTok.length) with
      | some n2 =>
        rw [htq] at h
        injection h with h2
        subst h2
        exact tryQuoted_ne_nil htq
      | none =>
        rw [htq] at h
        exact ih h
    · rw [if_neg hd] at h
      exact ih h

theorem extract_ne_empty {content nm : String}
    (h : extract_display_name content = some nm) : nm ≠ "" := by
  unfold extract_display_name at h
  rw [Option.map_eq_some'] at h
  obtain ⟨l, hl, rfl⟩ := h
  have hne := findDisplayName_ne_nil hl
  intro he
  apply hne
  have h2 : (String.mk l).data = ("" : String).data := by rw [he]
  simpa using h2

/-- C8: the record's display name is the manifest's declared display name
when the display-name pattern matches and otherwise the grandparent
(workshop-id) directory name, in both cases suffixed by a space and the
immediate parent (version) directory name in square brackets. -/
theorem display_name_derivation (pre : List String) (wid ver file : String)
    (content : String) (e : Option Bool) :
    (extract_display_name content = none →
      (process_folder_mod (pre ++ [wid, ver, file]) content e).2.1 =
        wid ++ " [" ++ ver ++ "]") ∧
    (∀ nm, extract_display_name content = some nm →
      (process_folder_mod (pre ++ [wid, ver, file]) content e).2.1 =
        nm ++ " [" ++ ver ++ "]") := by
  have hsplit1 : pre ++ [wid, ver, file] = (pre ++ [wid, ver]) ++ [file] := by simp
  have hsplit2 : pre ++ [wid, ver] = (pre ++ [wid]) ++ [ver] := by simp
  have hver : pathName (pathParent (pre ++ [wid, ver, file])) = ver := by
    unfold pathParent pathName
    rw [hsplit1, List.dropLast_concat, hsplit2, List.getLast?_concat]
    rfl
  have hwid : pathName (pathParent (pathParent (pre ++ [wid, ver, file]))) = wid := by
    unfold pathParent pathName
    rw [hsplit1, List.dropLast_concat, hsplit2, List.dropLast_concat,
      List.getLast?_concat]
    rfl
  constructor
  · intro hn
    cases e <;> simp [process_folder_mod, hn, hver, hwid]
  · intro nm hs
    have hne : ¬nm = "" := extract_ne_empty hs
    cases e <;> simp [process_folder_mod, hs, hne, hver, hwid]

/-- Witness for C8: a declared name yields "Acme Mod [151]"; without a
declared name the workshop-id folder is used. -/
theorem display_name_derivation_witness :
    (process_folder_mod ["c", "987654321", "151", "manifest.sii"]
      "display_name: \"Acme Mod\"" none).2.1 = "Acme Mod" ++ " [" ++ "151" ++ "]" ∧
    (process_folder_mod ["c", "987654321", "151", "manifest.sii"]
      "no declared name here" none).2.1 = "987654321" ++ " [" ++ "151" ++ "]" := by
  constructor
  · exact (display_name_derivation ["c"] "987654321" "151" "manifest.sii"
      "display_name: \"Acme Mod\"" none).2 "Acme Mod" (by decide)
  · exact (display_name_derivation ["c"] "987654321" "151" "manifest.sii"
      "no declared name here" none).1 (by decide)

/-- C6 counterexample: a text without any mod_package block whose write
output is not byte-identical to the input (the trailing newline is
dropped). -/
theorem no_block_not_byte_identical_cex :
    (∀ l ∈ pySplitlines ("hello\n" : String).data, isHeaderLine l = false) ∧
    toggle_manifest_text "hello\n" true ≠ "hello\n" := by
  constructor
  · decide
  · decide

/-- C6 (amended): for a manifest text with no mod_package header line, the
write operation returns the text unchanged up to newline normalisation:
the output is exactly the line split rejoined with single newlines, hence
byte-identical to the input precisely when that normalisation is the
identity on it. -/
theorem no_block_normalizes_only (t : String) (v : Bool)
    (hH : ∀ l ∈ pySplitlines t.data, isHeaderLine l = false) :
    toggle_manifest_text t v = String.mk (joinN (pySplitlines t.data)) ∧
    (joinN (pySplitlines t.data) = t.data → toggle_manifest_text t v = t) := by
  have h := go_out_pass (v := pyValue v) (s := initState) rfl hH
  constructor
  · show String.mk (joinN (toggleGo (pyValue v) initState (pySplitlines t.data))) = _
    rw [h.1]
  · intro h2
    show String.mk (joinN (toggleGo (pyValue v) initState (pySplitlines t.data))) = t
    rw [h.1, h2]

/-- Witness for C6 on a block-free text already in normal form. -/
theorem no_block_normalizes_only_witness :
    toggle_manifest_text "plain text" false = "plain text" :=
  (no_block_normalizes_only "plain text" false (by decide)).2 (by decide)

/-- C4 counterexample: on the empty manifest text, writing true and then
reading does not report true. -/
theorem write_read_round_trip_cex :
    ¬read_manifest_from_text (toggle_manifest_text "" true) = true := by
  decide

/-- C4 (amended): for a manifest text whose lines form one well-formed
mod_package block holding a single flag line, with no flag text outside it,
writing value v and then reading the result reports exactly v: writing true
then reading yields true, and writing false then reading yields false. -/
theorem write_then_read_reports_value (t : String) (v : Bool)
    (pre b1 b2 post : List (List Char)) (hdr fl close : List Char)
    (hsplit : pySplitlines t.data = pre ++ ((hdr :: ((b1 ++ fl :: b2) ++ [close])) ++ post))
    (hpreH : ∀ l ∈ pre, isHeaderLine l = false)
    (hpref : ∀ l ∈ pre, listContains (pyStrip l) flagTok = false)
    (hH : isHeaderLine hdr = true)
    (ho : countChar '\x7b' hdr = 0) (hc : countChar '\x7d' hdr = 0)
    (hfh : listContains (pyStrip hdr) flagTok = false)
    (hb1H : ∀ l ∈ b1, isHeaderLine l = false)
    (hb1f : ∀ l ∈ b1, listContains (pyStrip l) flagTok = false)
    (hflH : isHeaderLine fl = false)
    (hfl : listContains (pyStrip fl) flagTok = true)
    (hb2H : ∀ l ∈ b2, isHeaderLine l = false)
    (hb2f : ∀ l ∈ b2, listContains (pyStrip l) flagTok = false)
    (hpos : ∀ k, k < (b1 ++ fl :: b2).length →
      (1 : Int) ≤ sumDelta ((b1 ++ fl :: b2).take (k + 1)))
    (htot : sumDelta (b1 ++ fl :: b2) = 1)
    (hclose : pyStrip close = "\x7d".data)
    (hpostH : ∀ l ∈ post, isHeaderLine l = false)
    (hpostf : ∀ l ∈ post, listContains (pyStrip l) flagTok = false) :
    read_manifest_from_text (toggle_manifest_text t v) = v :=
  read_after_toggle t v pre b1 b2 post hdr fl close hsplit hpreH hpref hH ho hc hfh
    hb1H hb1f hflH hfl hb2H hb2f hpos htot hclose hpostH hpostf

/-- Witness for C4 on a concrete well-formed manifest, for value true. -/
theorem write_then_read_reports_value_witness :
    read_manifest_from_text (toggle_manifest_text
      "SiiNunit\n\x7b\nmod_package: .package_name\n\x7b\n    display_name: \"X\"\n    mp_mod_optional: false\n\x7d\n\x7d" true) = true :=
  write_then_read_reports_value
    "SiiNunit\n\x7b\nmod_package: .package_name\n\x7b\n    display_name: \"X\"\n    mp_mod_optional: false\n\x7d\n\x7d" true
    ["SiiNunit".data, "\x7b".data]
    ["\x7b".data, "    display_name: \"X\"".data]
    []
    ["\x7d".data]
    "mod_package: .package_name".data
    "    mp_mod_optional: false".data
    "\x7d".data
    (by decide) (by decide) (by decide) (by decide) (by decide) (by decide)
    (by decide) (by decide) (by decide) (by decide) (by decide) (by decide)
    (by decide) (by decide) (by decide) (by decide) (by decide) (by decide)

/-- C7 counterexample: on a manifest with no mod_package block (the empty
text), the state returned by a toggling call is true while the read
operation on the content it wrote reports false. -/
theorem memory_disk_invariant_cex :
    (process_folder_mod ["w", "1", "2", "manifest.sii"] "" (some true)).1 = true ∧
    read_manifest_from_text
      (process_folder_mod ["w", "1", "2", "manifest.sii"] "" (some true)).2.2 = false := by
  constructor
  · rfl
  · decide

/-- C7 (amended): for a manifest whose lines form one well-formed
mod_package block holding a single flag line, with no flag text outside it,
the in-memory state returned by the toggling call equals what the read
operation reports from the content the call wrote. -/
theorem memory_matches_disk_wellformed (path : List String) (t : String) (v : Bool)
    (pre b1 b2 post : List (List Char)) (hdr fl close : List Char)
    (hsplit : pySplitlines t.data = pre ++ ((hdr :: ((b1 ++ fl :: b2) ++ [close])) ++ post))
    (hpreH : ∀ l ∈ pre, isHeaderLine l = false)
    (hpref : ∀ l ∈ pre, listContains (pyStrip l) flagTok = false)
    (hH : isHeaderLine hdr = true)
    (ho : countChar '\x7b' hdr = 0) (hc : countChar '\x7d' hdr = 0)
    (hfh : listContains (pyStrip hdr) flagTok = false)
    (hb1H : ∀ l ∈ b1, isHeaderLine l = false)
    (hb1f : ∀ l ∈ b1, listContains (pyStrip l) flagTok = false)
    (hflH : isHeaderLine fl = false)
    (hfl : listContains (pyStrip fl) flagTok = true)
    (hb2H : ∀ l ∈ b2, isHeaderLine l = false)
    (hb2f : ∀ l ∈ b2, listContains (pyStrip l) flagTok = false)
    (hpos : ∀ k, k < (b1 ++ fl :: b2).length →
      (1 : Int) ≤ sumDelta ((b1 ++ fl :: b2).take (k + 1)))
    (htot : sumDelta (b1 ++ fl :: b2) = 1)
    (hclose : pyStrip close = "\x7d".data)
    (hpostH : ∀ l ∈ post, isHeaderLine l = false)
    (hpostf : ∀ l ∈ post, listContains (pyStrip l) flagTok = false) :
    (process_folder_mod path t (some v)).1 =
      read_manifest_from_text (process_folder_mod path t (some v)).2.2 := by
  have h1 : (process_folder_mod path t (some v)).1 = v := rfl
  have h2 : (process_folder_mod path t (some v)).2.2 = toggle_manifest_text t v := rfl
  rw [h1, h2, read_after_toggle t v pre b1 b2 post hdr fl close hsplit hpreH hpref hH
    ho hc hfh hb1H hb1f hflH hfl hb2H hb2f hpos htot hclose hpostH hpostf]

/-- Witness for C7 on a concrete well-formed manifest, writing false. -/
theorem memory_matches_disk_wellformed_witness :
    (process_folder_mod ["w", "55", "7", "manifest.sii"]
      "mod_package: .package_name\n\x7b\n    mp_mod_optional: true\n\x7d" (some false)).1 =
      read_manifest_from_text (process_folder_mod ["w", "55", "7", "manifest.sii"]
        "mod_package: .package_name\n\x7b\n    mp_mod_optional: true\n\x7d" (some false)).2.2 :=
  memory_matches_disk_wellformed ["w", "55", "7", "manifest.sii"]
    "mod_package: .package_name\n\x7b\n    mp_mod_optional: true\n\x7d" false
    [] ["\x7b".data] [] []
    "mod_package: .package_name".data
    "    mp_mod_optional: true".data
    "\x7d".data
    (by decide) (by decide) (by decide) (by decide) (by decide) (by decide)
    (by decide) (by decide) (by decide) (by decide) (by decide) (by decide)
    (by decide) (by decide) (by decide) (by decide) (by decide) (by decide)

/-- C3 counterexample: a manifest whose first (and only) mod_package block
has its opening brace on the header line and contains no flag line; the
write operation inserts nothing at all (the text is returned byte-identical),
because the header's brace is counted twice and the nesting count never
returns to zero. -/
theorem insert_exactly_one_cex :
    (∃ l ∈ pySplitlines ("mod_package: .a \x7b\n\x7d" : String).data,
      isHeaderLine l = true) ∧
    (∀ l ∈ pySplitlines ("mod_package: .a \x7b\n\x7d" : String).data,
      listContains (pyStrip l) flagTok = false) ∧
    toggle_manifest_text "mod_package: .a \x7b\n\x7d" true = "mod_package: .a \x7b\n\x7d" := by
  refine ⟨?_, ?_, ?_⟩ <;> decide

/-- C3 (amended): for a manifest whose lines form one well-formed
mod_package block (header without braces, brace on a following body line,
nesting reaching zero exactly at a bare closing-brace line) containing no
flag line, the write operation inserts exactly one new flag line with the
requested value immediately before the closing line, indented with the
closing line's indentation plus four extra spaces; all other lines are kept
in order. -/
theorem insert_before_close (t : String) (v : Bool)
    (pre body post : List (List Char)) (hdr close : List Char)
    (hsplit : pySplitlines t.data = pre ++ ((hdr :: (body ++ [close])) ++ post))
    (hpreH : ∀ l ∈ pre, isHeaderLine l = false)
    (hH : isHeaderLine hdr = true)
    (ho : countChar '\x7b' hdr = 0) (hc : countChar '\x7d' hdr = 0)
    (hfh : listContains (pyStrip hdr) flagTok = false)
    (hbH : ∀ l ∈ body, isHeaderLine l = false)
    (hbf : ∀ l ∈ body, listContains (pyStrip l) flagTok = false)
    (hpos : ∀ k, k < body.length → (1 : Int) ≤ sumDelta (body.take (k + 1)))
    (htot : sumDelta body = 1)
    (hclose : pyStrip close = "\x7d".data)
    (hpostH : ∀ l ∈ post, isHeaderLine l = false) :
    toggle_manifest_text t v = String.mk (joinN (pre ++ ((hdr :: (body ++
      ([pyIndent close ++ fourSpaces ++ flagAssign ++ pyValue v] ++ [close]))) ++ post))) := by
  show String.mk (joinN (toggleGo (pyValue v) initState (pySplitlines t.data))) = _
  rw [hsplit, toggle_ins_output hpreH hH ho hc hfh hbH hbf (pos_of_take hpos) htot
    hclose hpostH]

/-- Witness for C3 on a concrete flag-free block. -/
theorem insert_before_close_witness :
    toggle_manifest_text "mod_package: .a\n\x7b\n    x: 1\n\x7d" true =
      "mod_package: .a\n\x7b\n    x: 1\n    mp_mod_optional: true\n\x7d" :=
  (insert_before_close "mod_package: .a\n\x7b\n    x: 1\n\x7d" true
    [] ["\x7b".data, "    x: 1".data] [] "mod_package: .a".data "\x7d".data
    (by decide) (by decide) (by decide) (by decide) (by decide) (by decide)
    (by decide) (by decide) (by decide) (by decide) (by decide)
    (by decide)).trans (by decide)

/-- C10 counterexample: an input ending with exactly one trailing newline
character (preceded by a carriage return) whose write output still ends
with a newline. -/
theorem trailing_newline_cex :
    ("b\r\r\n" : String).data.getLast? = some '\n' ∧
    ("b\r\r\n" : String).data.dropLast.getLast? ≠ some '\n' ∧
    (toggle_manifest_text "b\r\r\n" true).data.getLast? = some '\n' := by
  refine ⟨?_, ?_, ?_⟩ <;> decide

/-- C10 (amended): for an input that ends with exactly one trailing newline
whose preceding character (if any) is not a line-break character, the write
output does not end with a newline: the split-and-rejoin drops the final
line terminator. -/
theorem trailing_newline_dropped (u : List Char) (v : Bool)
    (h : u = [] ∨ ∃ c, u.getLast? = some c ∧ isLineBreak c = false) :
    (toggle_manifest_text (String.mk (u ++ ['\n'])) v).data.getLast? ≠ some '\n' := by
  rcases h with rfl | ⟨c, hc, hbr⟩
  · cases v <;> decide
  · have hune : u ≠ [] := by intro h0; rw [h0] at hc; cases hc
    have hlastc : ∀ d, u.getLast? = some d → isLineBreak d = false := by
      intro d hd
      rw [hc] at hd
      injection hd with hd2
      rw [← hd2]
      exact hbr
    have hsp : pySplitlines (u ++ ['\n']) = pySplitlines u :=
      splitlines_final_nl hune hlastc
    have hne : pySplitlines u ≠ [] := by rwa [Ne, pySplitlines_nil_iff]
    have hlast : (pySplitlines u).getLast? ≠ some [] :=
      splitlines_last_ne_nil hune hlastc
    have hout := go_ne_nil_last (v := pyValue v) (s := initState) hne hlast
    have hnb := go_no_break (v := pyValue v) (by cases v <;> decide)
      (s := initState) (lines_no_break u)
    show (joinN (toggleGo (pyValue v) initState
      (pySplitlines (String.mk (u ++ ['\n'])).data))).getLast? ≠ some '\n'
    rw [show (String.mk (u ++ ['\n'])).data = u ++ ['\n'] from rfl, hsp]
    exact joinN_getLast_ne_nl hout.1 hout.2 hnb

/-- Witness for C10 on a concrete text. -/
theorem trailing_newline_dropped_witness :
    (toggle_manifest_text (String.mk ("hello".data ++ ['\n'])) true).data.getLast? ≠
      some '\n' :=
  trailing_newline_dropped "hello".data true (Or.inr ⟨'o', by decide, by decide⟩)

/-- C1 counterexample: a manifest with two sibling mod_package blocks in
which the write operation rewrites the second block's mp_mod_optional line
as well (line index 6 changes from false to true). -/
theorem second_block_flag_rewritten_cex :
    (pySplitlines ("mod_package: .a\n\x7b\n    mp_mod_optional: false\n\x7d\nmod_package: .b\n\x7b\n    mp_mod_optional: false\n\x7d" : String).data)[6]? =
      some "    mp_mod_optional: false".data ∧
    (pySplitlines (toggle_manifest_text
      "mod_package: .a\n\x7b\n    mp_mod_optional: false\n\x7d\nmod_package: .b\n\x7b\n    mp_mod_optional: false\n\x7d" true).data)[6]? =
      some "    mp_mod_optional: true".data := by
  constructor <;> decide

/-- C1 (amended): for a manifest with two sibling well-formed mod_package
blocks each holding a flag line, the write operation rewrites the flag lines
of both blocks to the requested value: the nesting tracker leaves block mode
at the first block's closing line but re-enters it at the second header. -/
theorem two_block_write_rewrites_both (t : String) (v : Bool)
    (pre mid post b11 b12 b21 b22 : List (List Char))
    (hdr1 fl1 close1 hdr2 fl2 close2 : List Char)
    (hsplit : pySplitlines t.data =
      pre ++ ((hdr1 :: ((b11 ++ fl1 :: b12) ++ [close1])) ++
        (mid ++ ((hdr2 :: ((b21 ++ fl2 :: b22) ++ [close2])) ++ post))))
    (hpreH : ∀ l ∈ pre, isHeaderLine l = false)
    (hH1 : isHeaderLine hdr1 = true)
    (ho1 : countChar '\x7b' hdr1 = 0) (hc1 : countChar '\x7d' hdr1 = 0)
    (hfh1 : listContains (pyStrip hdr1) flagTok = false)
    (hb11H : ∀ l ∈ b11, isHeaderLine l = false)
    (hb11f : ∀ l ∈ b11, listContains (pyStrip l) flagTok = false)
    (hfl1H : isHeaderLine fl1 = false)
    (hfl1 : listContains (pyStrip fl1) flagTok = true)
    (hb12H : ∀ l ∈ b12, isHeaderLine l = false)
    (hb12f : ∀ l ∈ b12, listContains (pyStrip l) flagTok = false)
    (hpos1 : ∀ k, k < (b11 ++ fl1 :: b12).length →
      (1 : Int) ≤ sumDelta ((b11 ++ fl1 :: b12).take (k + 1)))
    (htot1 : sumDelta (b11 ++ fl1 :: b12) = 1)
    (hclose1 : pyStrip close1 = "\x7d".data)
    (hmidH : ∀ l ∈ mid, isHeaderLine l = false)
    (hH2 : isHeaderLine hdr2 = true)
    (ho2 : countChar '\x7b' hdr2 = 0) (hc2 : countChar '\x7d' hdr2 = 0)
    (hfh2 : listContains (pyStrip hdr2) flagTok = false)
    (hb21H : ∀ l ∈ b21, isHeaderLine l = false)
    (hb21f : ∀ l ∈ b21, listContains (pyStrip l) flagTok = false)
    (hfl2H : isHeaderLine fl2 = false)
    (hfl2 : listContains (pyStrip fl2) flagTok = true)
    (hb22H : ∀ l ∈ b22, isHeaderLine l = false)
    (hb22f : ∀ l ∈ b22, listContains (pyStrip l) flagTok = false)
    (hpos2 : ∀ k, k < (b21 ++ fl2 :: b22).length →
      (1 : Int) ≤ sumDelta ((b21 ++ fl2 :: b22).take (k + 1)))
    (htot2 : sumDelta (b21 ++ fl2 :: b22) = 1)
    (hclose2 : pyStrip close2 = "\x7d".data)
    (hpostH : ∀ l ∈ post, isHeaderLine l = false) :
    toggle_manifest_text t v = String.mk (joinN
      (pre ++ ((hdr1 :: (b11 ++ ((pyIndent fl1 ++ flagAssign ++ pyValue v) ::
          (b12 ++ [close1])))) ++
        (mid ++ ((hdr2 :: (b21 ++ ((pyIndent fl2 ++ flagAssign ++ pyValue v) ::
          (b22 ++ [close2])))) ++ post))))) := by
  show String.mk (joinN (toggleGo (pyValue v) initState (pySplitlines t.data))) = _
  rw [hsplit, toggleGo_append]
  have hpre := go_out_pass (v := pyValue v) (s := initState) rfl hpreH
  rw [hpre.1, hpre.2, toggleGo_append]
  have hb1 := go_block_repl (v := pyValue v) (s := initState) hH1 ho1 hc1 hfh1
    hb11H hb11f hfl1H hfl1 hb12H hb12f (pos_of_take hpos1) htot1 hclose1
  rw [hb1.1, hb1.2, toggleGo_append]
  have hmid := go_out_pass (v := pyValue v) (s := ⟨false, 0, true⟩) rfl hmidH
  rw [hmid.1, hmid.2, toggleGo_append]
  have hb2 := go_block_repl (v := pyValue v) (s := ⟨false, 0, true⟩) hH2 ho2 hc2 hfh2
    hb21H hb21f hfl2H hfl2 hb22H hb22f (pos_of_take hpos2) htot2 hclose2
  rw [hb2.1, hb2.2]
  have hpost := go_out_pass (v := pyValue v) (s := ⟨false, 0, true⟩) rfl hpostH
  rw [hpost.1]

/-- Witness for C1 on a concrete two-block manifest. -/
theorem two_block_write_rewrites_both_witness :
    toggle_manifest_text
      "mod_package: .a\n\x7b\n    mp_mod_optional: false\n\x7d\nmod_package: .b\n\x7b\n    mp_mod_optional: false\n\x7d" true =
      "mod_package: .a\n\x7b\n    mp_mod_optional: true\n\x7d\nmod_package: .b\n\x7b\n    mp_mod_optional: true\n\x7d" :=
  (two_block_write_rewrites_both
    "mod_package: .a\n\x7b\n    mp_mod_optional: false\n\x7d\nmod_package: .b\n\x7b\n    mp_mod_optional: false\n\x7d" true
    [] [] [] ["\x7b".data] [] ["\x7b".data] []
    "mod_package: .a".data "    mp_mod_optional: false".data "\x7d".data
    "mod_package: .b".data "    mp_mod_optional: false".data "\x7d".data
    (by decide) (by decide) (by decide) (by decide) (by decide) (by decide)
    (by decide) (by decide) (by decide) (by decide) (by decide) (by decide)
    (by decide) (by decide) (by decide) (by decide) (by decide) (by decide)
    (by decide) (by decide) (by decide) (by decide) (by decide) (by decide)
    (by decide) (by decide) (by decide) (by decide) (by decide)
    (by decide)).trans (by decide)

/-- C5 counterexample: the write operation is not idempotent on a text made
of two empty lines; each application drops one newline. -/
theorem toggle_idempotent_cex :
    toggle_manifest_text (toggle_manifest_text "\n\n" true) true ≠
      toggle_manifest_text "\n\n" true := by
  decide

/-- C5 (amended): for a manifest whose lines form one well-formed
mod_package block with a single flag line carrying no braces, and whose
final line is nonempty, writing the same value twice is idempotent: the
second write is byte-identical to the first. -/
theorem toggle_idempotent_wellformed (t : String) (v : Bool)
    (pre b1 b2 post : List (List Char)) (hdr fl close : List Char)
    (hsplit : pySplitlines t.data = pre ++ ((hdr :: ((b1 ++ fl :: b2) ++ [close])) ++ post))
    (hpreH : ∀ l ∈ pre, isHeaderLine l = false)
    (hH : isHeaderLine hdr = true)
    (ho : countChar '\x7b' hdr = 0) (hc : countChar '\x7d' hdr = 0)
    (hfh : listContains (pyStrip hdr) flagTok = false)
    (hb1H : ∀ l ∈ b1, isHeaderLine l = false)
    (hb1f : ∀ l ∈ b1, listContains (pyStrip l) flagTok = false)
    (hflH : isHeaderLine fl = false)
    (hfl : listContains (pyStrip fl) flagTok = true)
    (hb2H : ∀ l ∈ b2, isHeaderLine l = false)
    (hb2f : ∀ l ∈ b2, listContains (pyStrip l) flagTok = false)
    (hpos : ∀ k, k < (b1 ++ fl :: b2).length →
      (1 : Int) ≤ sumDelta ((b1 ++ fl :: b2).take (k + 1)))
    (htot : sumDelta (b1 ++ fl :: b2) = 1)
    (hclose : pyStrip close = "\x7d".data)
    (hpostH : ∀ l ∈ post, isHeaderLine l = false)
    (hbrfl : braceDelta fl = 0)
    (hlast : (pySplitlines t.data).getLast? ≠ some []) :
    toggle_manifest_text (toggle_manifest_text t v) v = toggle_manifest_text t v := by
  have props := flag_line_props (pyIndent_all_ws fl) v
  have hout : toggleGo (pyValue v) initState (pySplitlines t.data) =
      pre ++ ((hdr :: (b1 ++ ((pyIndent fl ++ flagAssign ++ pyValue v) ::
        (b2 ++ [close])))) ++ post) := by
    rw [hsplit]
    exact toggle_repl_output hpreH hH ho hc hfh hb1H hb1f hflH hfl hb2H hb2f
      (pos_of_take hpos) htot hclose hpostH
  have hdata1 : (toggle_manifest_text t v).data =
      joinN (pre ++ ((hdr :: (b1 ++ ((pyIndent fl ++ flagAssign ++ pyValue v) ::
        (b2 ++ [close])))) ++ post)) := by
    show joinN (toggleGo (pyValue v) initState (pySplitlines t.data)) = _
    rw [hout]
  have hinne : pySplitlines t.data ≠ [] := by rw [hsplit]; simp
  have hgo := go_ne_nil_last (v := pyValue v) (s := initState) hinne hlast
  rw [hout] at hgo
  have hnb := go_no_break (v := pyValue v) (by cases v <;> decide) (s := initState)
    (lines_no_break t.data)
  rw [hout] at hnb
  have hsp2 : pySplitlines (toggle_manifest_text t v).data =
      pre ++ ((hdr :: (b1 ++ ((pyIndent fl ++ flagAssign ++ pyValue v) ::
        (b2 ++ [close])))) ++ post) := by
    rw [hdata1]
    exact splitlines_joinN (by simp) hgo.2 hnb
  have hshape : pre ++ ((hdr :: (b1 ++ ((pyIndent fl ++ flagAssign ++ pyValue v) ::
        (b2 ++ [close])))) ++ post)
      = pre ++ ((hdr :: ((b1 ++ (pyIndent fl ++ flagAssign ++ pyValue v) :: b2) ++
        [close])) ++ post) := by
    simp [List.append_assoc]
  have hfl2assoc : pyIndent fl ++ flagAssign ++ pyValue v =
      pyIndent fl ++ (flagAssign ++ pyValue v) := by
    rw [List.append_assoc]
  have hflH2 : isHeaderLine (pyIndent fl ++ flagAssign ++ pyValue v) = false := by
    rw [hfl2assoc]; exact props.1
  have hfl2 : listContains (pyStrip (pyIndent fl ++ flagAssign ++ pyValue v))
      flagTok = true := by
    rw [hfl2assoc]; exact props.2.1
  have hdelta2 : braceDelta (pyIndent fl ++ flagAssign ++ pyValue v) = 0 := by
    rw [hfl2assoc]; exact props.2.2.1
  have hindent2 : pyIndent (pyIndent fl ++ flagAssign ++ pyValue v) = pyIndent fl := by
    rw [hfl2assoc]; exact props.2.2.2
  have hmap : (b1 ++ (pyIndent fl ++ flagAssign ++ pyValue v) :: b2).map braceDelta
      = (b1 ++ fl :: b2).map braceDelta := by
    simp only [List.map_append, List.map_cons]
    rw [hdelta2, hbrfl]
  have hlen : (b1 ++ (pyIndent fl ++ flagAssign ++ pyValue v) :: b2).length =
      (b1 ++ fl :: b2).length := by
    simp
  have hpos2 : ∀ k, k < (b1 ++ (pyIndent fl ++ flagAssign ++ pyValue v) :: b2).length →
      (1 : Int) ≤ sumDelta ((b1 ++ (pyIndent fl ++ flagAssign ++ pyValue v) :: b2).take
        (k + 1)) := by
    intro k hk
    rw [hlen] at hk
    have h0 := hpos k hk
    unfold sumDelta at h0 ⊢
    rw [List.map_take, hmap, ← List.map_take]
    exact h0
  have htot2 : sumDelta (b1 ++ (pyIndent fl ++ flagAssign ++ pyValue v) :: b2) = 1 := by
    unfold sumDelta
    rw [hmap]
    exact htot
  have hout2 : toggleGo (pyValue v) initState
      (pre ++ ((hdr :: (b1 ++ ((pyIndent fl ++ flagAssign ++ pyValue v) ::
        (b2 ++ [close])))) ++ post)) =
      pre ++ ((hdr :: (b1 ++ ((pyIndent (pyIndent fl ++ flagAssign ++ pyValue v) ++
        flagAssign ++ pyValue v) :: (b2 ++ [close])))) ++ post) := by
    rw [hshape]
    exact toggle_repl_output hpreH hH ho hc hfh hb1H hb1f hflH2 hfl2 hb2H hb2f
      (pos_of_take hpos2) htot2 hclose hpostH
  rw [hindent2] at hout2
  show String.mk (joinN (toggleGo (pyValue v) initState
    (pySplitlines (toggle_manifest_text t v).data))) = toggle_manifest_text t v
  rw [hsp2, hout2]
  exact (congrArg String.mk hdata1.symm).trans rfl

/-- Witness for C5 on a concrete well-formed manifest. -/
theorem toggle_idempotent_wellformed_witness :
    toggle_manifest_text (toggle_manifest_text
      "mod_package: .a\n\x7b\n    mp_mod_optional: false\n\x7d" true) true =
      toggle_manifest_text "mod_package: .a\n\x7b\n    mp_mod_optional: false\n\x7d" true :=
  toggle_idempotent_wellformed
    "mod_package: .a\n\x7b\n    mp_mod_optional: false\n\x7d" true
    [] ["\x7b".data] [] []
    "mod_package: .a".data "    mp_mod_optional: false".data "\x7d".data
    (by decide) (by decide) (by decide) (by decide) (by decide) (by decide)
    (by decide) (by decide) (by decide) (by decide) (by decide) (by decide)
    (by decide) (by decide) (by decide) (by decide) (by decide) (by decide)

end Optionalizer
